import Mathlib

/-!
# godogstats: the metric-name mogrifier (`mogrifier_map.go`)

A shallow embedding of `src/godogstats/mogrifier_map.go` and the properties of
its template expansion (`makePatternHandler`), of the construction of the
mogrifier map (`newMogrifierMapFromEnv`) and of the dispatch (`mogrify`).

Modelling conventions
* A Go `string` is a `List Char` (`GoString`).  The only characters the code
  inspects are `$` and the ASCII digits, which are single bytes in UTF-8, so
  slicing by bytes (`s[1:]`) and by characters coincide on every token.
* A Go `int` is 64 bits wide (`intSize`); `maxInt` is its largest value.
* A call either returns or panics (`Outcome`): `matches[i]` with `i` out of
  range is the Go runtime fault "index out of range".
* Go leaves the order of `range` over a map unspecified; the order actually
  taken by a loop is an explicit argument (`RangeOrder`).
* The regular-expression engine (`regexp.Compile`) and the environment loader
  (`envconfig.Process`) are libraries outside the repository: they are taken
  as parameters.  A compiled expression is represented by what
  `FindStringSubmatch` returns on each input.
-/

namespace Godogstats

/-- A Go `string`. -/
abbrev GoString := List Char

/-- Width of the Go type `int`. -/
def intSize : Nat := 64

/-- Largest value of the Go type `int`. -/
def maxInt : Nat := 2 ^ (intSize - 1) - 1

/-- Go runtime faults raised by the code. -/
inductive RuntimePanic where
  | indexOutOfRange (index : Int) (len : Nat)
  deriving DecidableEq, Repr

/-- Result of running a Go call: it returns a value or the goroutine panics. -/
inductive Outcome (α : Type) where
  | returned (a : α)
  | panicked (p : RuntimePanic)
  deriving DecidableEq, Repr

/-- Sequencing of two computations: a panic of the first one propagates. -/
def Outcome.bind {α β : Type} (x : Outcome α) (f : α → Outcome β) : Outcome β :=
  match x with
  | Outcome.returned a => f a
  | Outcome.panicked p => Outcome.panicked p

/-! ## `strconv.Atoi` -/

/-- The errors `strconv.Atoi` reports (`strconv.ErrSyntax`, `strconv.ErrRange`). -/
inductive NumError where
  | errSyntax
  | errRange
  deriving DecidableEq, Repr

/-- Value of a run of decimal digits, most significant digit first. -/
def decimalValue (ds : List Char) : Nat :=
  ds.foldl (fun acc c => acc * 10 + (c.toNat - '0'.toNat)) 0

/-- The function `strconv.Atoi`: an optional sign followed by one or more decimal digits.
On a syntax error the value is 0; when the number does not fit an `int` the
value is the largest magnitude of that sign and the error is `ErrRange`. -/
def atoi (s : GoString) : Int × Option NumError :=
  let neg : Bool := s.head? = some '-'
  let body : GoString := if s.head? = some '-' ∨ s.head? = some '+' then s.tail else s
  if body = [] ∨ ¬ body.all Char.isDigit = true then (0, some NumError.errSyntax)
  else if neg then
    if decimalValue body ≤ maxInt + 1 then (-(decimalValue body : Int), none)
    else (-((maxInt : Int) + 1), some NumError.errRange)
  else
    if decimalValue body ≤ maxInt then ((decimalValue body : Int), none)
    else ((maxInt : Int), some NumError.errRange)

/-! ## `varFinder` and `ReplaceAllStringFunc` -/

/-- The leftmost-first match of `varFinder = \$\d+` anchored at the start of `s`:
a `$` followed by the longest non-empty run of decimal digits.  Returns the
length of the match. -/
def varFinderMatchAt (s : GoString) : Option Nat :=
  match s with
  | '$' :: rest =>
    if rest.takeWhile Char.isDigit = [] then none
    else some (1 + (rest.takeWhile Char.isDigit).length)
  | _ => none

/-- Main loop of `varFinder.ReplaceAllStringFunc(src, repl)`.  The text is scanned from
left to right; `skip` counts the characters still covered by the previous match.
At every other position the expression is tried: on a match the matched text is
replaced by `repl` of it and the scan resumes after the match, otherwise the
character is copied. -/
def replaceAllLoop (repl : GoString → Outcome GoString) : Nat → GoString → Outcome GoString
  | _, [] => Outcome.returned []
  | skip + 1, _ :: cs => replaceAllLoop repl skip cs
  | 0, c :: cs =>
    match varFinderMatchAt (c :: cs) with
    | some n =>
      (repl ((c :: cs).take n)).bind fun r =>
        (replaceAllLoop repl (n - 1) cs).bind fun out => Outcome.returned (r ++ out)
    | none => (replaceAllLoop repl 0 cs).bind fun out => Outcome.returned (c :: out)

/-- The call `varFinder.ReplaceAllStringFunc(src, repl)`. -/
def replaceAllStringFunc (src : GoString) (repl : GoString → Outcome GoString) :
    Outcome GoString :=
  replaceAllLoop repl 0 src

/-- The indexing expression `xs[i]` on a slice. -/
def index {α : Type} (xs : List α) (i : Int) : Outcome α :=
  if 0 ≤ i then
    match xs.get? i.toNat with
    | some x => Outcome.returned x
    | none => Outcome.panicked (RuntimePanic.indexOutOfRange i xs.length)
  else Outcome.panicked (RuntimePanic.indexOutOfRange i xs.length)

/-- The function `makePatternHandler(pattern)`: the returned closure, applied to `matches`. -/
def makePatternHandler (pattern : GoString) (submatches : List GoString) : Outcome GoString :=
  replaceAllStringFunc pattern fun s => index submatches (atoi (s.drop 1)).1

/-! ## Maps and `range` -/

/-- The order in which one `range` loop visits the entries of a map.  Go leaves it
unspecified: for a map with `n` entries the runtime picks some arrangement of the
`n` positions. -/
structure RangeOrder where
  order : (n : Nat) → List (Fin n)
  order_perm : ∀ n : Nat, (order n).Perm (List.finRange n)

/-- The entries of a map in the order a `range` loop visits them. -/
def RangeOrder.visit {α : Type} (ro : RangeOrder) (l : List α) : List α :=
  (ro.order l.length).map l.get

/-- The order that visits the entries as they were inserted. -/
def insertionOrder : RangeOrder where
  order := fun n => List.finRange n
  order_perm := fun _ => List.Perm.refl _

/-- The order that visits the entries last inserted first. -/
def reverseOrder : RangeOrder where
  order := fun n => (List.finRange n).reverse
  order_perm := fun _ => List.reverse_perm _

/-- The assignment `m[k] = v` on a map held as the list of its entries (at most one
per key, in insertion order): an entry with an equal key has its value replaced,
otherwise a new entry is added. -/
def mapInsert {κ ν : Type} [BEq κ] (m : List (κ × ν)) (k : κ) (v : ν) : List (κ × ν) :=
  if m.any (fun e => e.1 == k) then m.map (fun e => if e.1 == k then (e.1, v) else e)
  else m ++ [(k, v)]

/-! ## The mogrifier map -/

/-- A compiled `regexp.Regexp`, represented by its method `FindStringSubmatch`: the
result is nil (here `[]`) when the expression does not match, otherwise the whole
match followed by the sub-matches. -/
structure Regexp where
  findStringSubmatch : GoString → List GoString

/-- A `*regexp.Regexp`: the address of the compiled expression and the expression. -/
structure RegexpPtr where
  addr : Nat
  target : Regexp

/-- Map keys of type `*regexp.Regexp` are compared as pointers. -/
instance : BEq RegexpPtr := ⟨fun a b => a.addr == b.addr⟩

/-- A Go `[]string` result: `none` is the nil slice. -/
abbrev StringSlice := Option (List GoString)

/-- A value of the map: `func([]string) (string, []string)`.  The extra argument is the
order taken by the `range` loop inside the closure. -/
abbrev Mogrifier := RangeOrder → List GoString → Outcome (GoString × StringSlice)

/-- The type `mogrifierMap`: `none` is the nil map. -/
abbrev mogrifierMap := Option (List (RegexpPtr × Mogrifier))

/-- The constant `envPrefix`. -/
def envPrefix : GoString := "DOG_STATSD_MOGRIFIER".toList

/-- The local type `config` of `newMogrifierMapFromEnv`.  `Tags` is a Go map, held as
the list of its entries. -/
structure config where
  Pattern : GoString
  Tags : List (GoString × GoString)
  Name : GoString

/-- The loop `for tagKey, handler := range tagHandlers` of the closure, over the entries in
the order visited; `tags` is the slice built so far. -/
def collectTags (submatches : List GoString) :
    List (GoString × (List GoString → Outcome GoString)) → List GoString →
      Outcome (List GoString)
  | [], tags => Outcome.returned tags
  | (tagKey, handler) :: rest, tags =>
    (handler submatches).bind fun tagValue =>
      collectTags submatches rest (tags ++ [tagKey ++ ":".toList ++ tagValue])

/-- The closure stored in the map by `newMogrifierMapFromEnv` (lines 56-64). -/
def mogrifierFunc (nameHandler : List GoString → Outcome GoString)
    (tagHandlers : List (GoString × (List GoString → Outcome GoString))) : Mogrifier :=
  fun ro submatches =>
    (nameHandler submatches).bind fun name =>
      (collectTags submatches (ro.visit tagHandlers) []).bind fun tags =>
        Outcome.returned (name, some tags)

/-- The loop `for key, value := range cfg.Tags` that fills `tagHandlers`. -/
def makeTagHandlers (ro : RangeOrder) (tags : List (GoString × GoString)) :
    List (GoString × (List GoString → Outcome GoString)) :=
  (ro.visit tags).foldl (fun th kv => mapInsert th kv.1 (makePatternHandler kv.2)) []

/-- The loop `for _, mogrifier := range keys` of `newMogrifierMapFromEnv`.  `process` is
`envconfig.Process` (the loaded configuration, or the text of its error) and `compile`
is `regexp.Compile`.  `i` counts the iterations done: the expression compiled in
iteration `i` is a fresh object, at address `i`. -/
def newMogrifierMapLoop (ro : RangeOrder) (process : GoString → Except GoString config)
    (compile : GoString → Except GoString Regexp) :
    Nat → List GoString → List (RegexpPtr × Mogrifier) → mogrifierMap × Option GoString
  | _, [], mogrifiers => (some mogrifiers, none)
  | i, mogrifier :: rest, mogrifiers =>
    match process (envPrefix ++ "_".toList ++ mogrifier) with
    | Except.error err =>
      (none, some ("failed to load mogrifier ".toList ++ mogrifier ++ ": ".toList ++ err))
    | Except.ok cfg =>
      match compile cfg.Pattern with
      | Except.error err =>
        (none, some ("failed to compile pattern for ".toList ++ mogrifier ++ ": ".toList
          ++ cfg.Pattern ++ ": ".toList ++ err))
      | Except.ok re =>
        newMogrifierMapLoop ro process compile (i + 1) rest
          (mapInsert mogrifiers ⟨i, re⟩
            (mogrifierFunc (makePatternHandler cfg.Name) (makeTagHandlers ro cfg.Tags)))

/-- The function `newMogrifierMapFromEnv(keys)`: returns the map and the error (`none` is nil). -/
def newMogrifierMapFromEnv (ro : RangeOrder) (process : GoString → Except GoString config)
    (compile : GoString → Except GoString Regexp) (keys : List GoString) :
    mogrifierMap × Option GoString :=
  newMogrifierMapLoop ro process compile 0 keys []

/-- The loop `for matcher, mogrifier := range m` of `mogrify`, over the entries in the order
visited. -/
def mogrifyLoop (ro : RangeOrder) (name : GoString) :
    List (RegexpPtr × Mogrifier) → Outcome (GoString × StringSlice)
  | [] => Outcome.returned (name, none)
  | (matcher, mogrifier) :: rest =>
    if (matcher.target.findStringSubmatch name).length = 0 then mogrifyLoop ro name rest
    else mogrifier ro (matcher.target.findStringSubmatch name)

/-- The method `mogrifierMap.mogrify(name)`. -/
def mogrify (ro : RangeOrder) (m : mogrifierMap) (name : GoString) :
    Outcome (GoString × StringSlice) :=
  match m with
  | none => Outcome.returned (name, none)
  | some entries => mogrifyLoop ro name (ro.visit entries)

/-! ## Templates as the specification describes them -/

/-- A piece of a template: a character outside every placeholder, or a placeholder token
`$<index>` given by the digits of its index. -/
inductive Segment where
  | lit (c : Char)
  | placeholder (digits : List Char)
  deriving DecidableEq, Repr

/-- The text a segment stands for in the template. -/
def Segment.text : Segment → GoString
  | Segment.lit c => [c]
  | Segment.placeholder ds => '$' :: ds

/-- The template spelled by a sequence of segments. -/
def templateText : List Segment → GoString
  | [] => []
  | s :: rest => s.text ++ templateText rest

/-- A placeholder carries at least one digit and digits only. -/
def Segment.WellFormed : Segment → Prop
  | Segment.lit _ => True
  | Segment.placeholder ds => ds ≠ [] ∧ ∀ c ∈ ds, c.isDigit = true

/-- The segment is a literal decimal digit. -/
def Segment.isDigitLit : Segment → Bool
  | Segment.lit c => c.isDigit
  | Segment.placeholder _ => false

/-- The segment is a placeholder or a literal `$`: a digit right after it would belong to
a placeholder token starting here. -/
def Segment.opensToken : Segment → Bool
  | Segment.lit c => c == '$'
  | Segment.placeholder _ => true

/-- The segments are the placeholder tokens `$<index>` of the template and the characters
outside them: every placeholder is well formed, takes the whole run of digits (no literal
digit follows it), and no literal `$` is followed by a literal digit. -/
def IsTokenization : List Segment → Prop
  | [] => True
  | s :: rest =>
    s.WellFormed ∧ (s.opensToken = true → ∀ s', rest.head? = some s' → s'.isDigitLit = false)
      ∧ IsTokenization rest

/-- The indices of the placeholders, in the order of the template. -/
def placeholderIndices : List Segment → List Nat
  | [] => []
  | Segment.lit _ :: rest => placeholderIndices rest
  | Segment.placeholder ds :: rest => decimalValue ds :: placeholderIndices rest

/-- What a segment becomes: a literal stays, a placeholder becomes `captures[index]`. -/
def Segment.subst (captures : List GoString) : Segment → GoString
  | Segment.lit c => [c]
  | Segment.placeholder ds => captures.getD (decimalValue ds) []

/-- The template with every placeholder replaced by its capture and everything else kept
in place. -/
def substitute (captures : List GoString) : List Segment → GoString
  | [] => []
  | s :: rest => s.subst captures ++ substitute captures rest

/-- The segments of a template, found by one scan from the left that takes at every `$`
the longest run of digits after it. -/
def tokenizeLoop : Nat → GoString → List Segment
  | _, [] => []
  | skip + 1, _ :: cs => tokenizeLoop skip cs
  | 0, c :: cs =>
    if c = '$' ∧ cs.takeWhile Char.isDigit ≠ [] then
      Segment.placeholder (cs.takeWhile Char.isDigit)
        :: tokenizeLoop (cs.takeWhile Char.isDigit).length cs
    else Segment.lit c :: tokenizeLoop 0 cs

/-- The segments of a template. -/
def tokenize (template : GoString) : List Segment := tokenizeLoop 0 template

/-- Every placeholder index of the template is below `n`. -/
def PlaceholdersBelow (template : GoString) (n : Nat) : Prop :=
  ∀ i ∈ placeholderIndices (tokenize template), i < n

instance (template : GoString) (n : Nat) : Decidable (PlaceholdersBelow template n) := by
  unfold PlaceholdersBelow; infer_instance

/-- The template contains a `$` immediately followed by a decimal digit. -/
def hasPlaceholder : GoString → Bool
  | [] => false
  | [_] => false
  | c :: d :: rest => (c == '$' && d.isDigit) || hasPlaceholder (d :: rest)

/-! ## Entries and specifications -/

/-- The matcher of the entry matches the name: `FindStringSubmatch` returns a non-empty
slice. -/
def matchesName (name : GoString) (e : RegexpPtr × Mogrifier) : Bool :=
  (e.1.target.findStringSubmatch name).length != 0

/-- The result of applying one entry to a name its matcher is run on. -/
def applyEntry (ro : RangeOrder) (name : GoString) (e : RegexpPtr × Mogrifier) :
    Outcome (GoString × StringSlice) :=
  e.2 ro (e.1.target.findStringSubmatch name)

/-- The entries a map holds; the nil map holds none. -/
def entriesOf : mogrifierMap → List (RegexpPtr × Mogrifier)
  | none => []
  | some entries => entries

/-- The tag string of a (tagKey, template) pair whose template expands to `value`. -/
def tagString (tagKey value : GoString) : GoString := tagKey ++ ":".toList ++ value

/-- The key loads and its pattern compiles: `spec` is the configuration and the compiled
expression of the key. -/
def Loads (process : GoString → Except GoString config)
    (compile : GoString → Except GoString Regexp) (key : GoString)
    (spec : config × Regexp) : Prop :=
  process (envPrefix ++ "_".toList ++ key) = Except.ok spec.1
    ∧ compile spec.1.Pattern = Except.ok spec.2

/-- The key fails: its configuration does not load or its pattern does not compile.  `msg`
is the text of the error `newMogrifierMapFromEnv` returns for it. -/
def Fails (process : GoString → Except GoString config)
    (compile : GoString → Except GoString Regexp) (key : GoString) (msg : GoString) : Prop :=
  (∃ err, process (envPrefix ++ "_".toList ++ key) = Except.error err
      ∧ msg = "failed to load mogrifier ".toList ++ key ++ ": ".toList ++ err)
    ∨ (∃ cfg err, process (envPrefix ++ "_".toList ++ key) = Except.ok cfg
      ∧ compile cfg.Pattern = Except.error err
      ∧ msg = "failed to compile pattern for ".toList ++ key ++ ": ".toList
          ++ cfg.Pattern ++ ": ".toList ++ err)

/-- The map entry made from a specification in iteration `i` of the construction loop. -/
def entryOf (ro : RangeOrder) (i : Nat) (spec : config × Regexp) : RegexpPtr × Mogrifier :=
  (⟨i, spec.2⟩, mogrifierFunc (makePatternHandler spec.1.Name) (makeTagHandlers ro spec.1.Tags))

/-- The map entries made from a list of specifications, the first one in iteration `i`. -/
def entriesFrom (ro : RangeOrder) : Nat → List (config × Regexp) → List (RegexpPtr × Mogrifier)
  | _, [] => []
  | i, spec :: rest => entryOf ro i spec :: entriesFrom ro (i + 1) rest

/-! ## Concrete expressions and configurations used in the examples -/

/-- What `FindStringSubmatch` returns for the expression `^baz$`. -/
def reBaz : Regexp where
  findStringSubmatch := fun s => if s = "baz".toList then ["baz".toList] else []

/-- What `FindStringSubmatch` returns for the expression `^b`. -/
def reB : Regexp where
  findStringSubmatch := fun s => if s.head? = some 'b' then ["b".toList] else []

/-- What `FindStringSubmatch` returns for the empty expression: the empty match, on every
input. -/
def reEmpty : Regexp where
  findStringSubmatch := fun _ => [[]]

/-- A stand-in for `regexp.Compile` on the expressions of the examples: `^baz$`, `^b` and the
empty expression compile, and `(` is rejected for its missing closing parenthesis.  On any
other expression the stand-in reports the same kind of error; the examples use none. -/
def compileDemo (pattern : GoString) : Except GoString Regexp :=
  if pattern = "^baz$".toList then Except.ok reBaz
  else if pattern = "^b".toList then Except.ok reB
  else if pattern = [] then Except.ok reEmpty
  else Except.error ("error parsing regexp: missing closing ): `".toList ++ pattern ++ "`".toList)

/-- The configuration of mogrifier `A`: pattern `^baz$`, name `first`, tag `id` with
template `$0`. -/
def cfgA : config := ⟨"^baz$".toList, [("id".toList, "$0".toList)], "first".toList⟩

/-- The configuration of mogrifier `B`: pattern `^b`, name `second.$0`, no tags. -/
def cfgB : config := ⟨"^b".toList, [], "second.$0".toList⟩

/-- The configuration of mogrifier `C`: its pattern `(` does not compile. -/
def cfgC : config := ⟨"(".toList, [], "third".toList⟩

/-- The configuration of mogrifier `D`: pattern `^baz$`, which has no group, and the name
template `$1`. -/
def cfgD : config := ⟨"^baz$".toList, [], "$1".toList⟩

/-- A stand-in for `envconfig.Process` in an environment that configures the mogrifiers `A`,
`B`, `C` and `D`; any other key finds no variable and is left with the zero configuration. -/
def processDemo (pfx : GoString) : Except GoString config :=
  if pfx = "DOG_STATSD_MOGRIFIER_A".toList then Except.ok cfgA
  else if pfx = "DOG_STATSD_MOGRIFIER_B".toList then Except.ok cfgB
  else if pfx = "DOG_STATSD_MOGRIFIER_C".toList then Except.ok cfgC
  else if pfx = "DOG_STATSD_MOGRIFIER_D".toList then Except.ok cfgD
  else Except.ok ⟨[], [], []⟩

/-! ## Boundaries between two templates -/

/-- The text begins with a decimal digit. -/
def startsWithDigit : GoString → Bool
  | [] => false
  | c :: _ => c.isDigit

/-- The text ends with a `$` followed by zero or more decimal digits. -/
def endsWithOpenToken (t : GoString) : Bool :=
  (t.reverse.dropWhile Char.isDigit).head? == some '$'

/-! ## Outcome sequencing -/

@[simp] theorem Outcome.bind_returned {α β : Type} (a : α) (f : α → Outcome β) :
    (Outcome.returned a).bind f = f a := rfl

@[simp] theorem Outcome.bind_panicked {α β : Type} (p : RuntimePanic) (f : α → Outcome β) :
    (Outcome.panicked p : Outcome α).bind f = Outcome.panicked p := rfl

/-! ## The scanning loop -/

theorem replaceAllLoop_nil (repl : GoString → Outcome GoString) (k : Nat) :
    replaceAllLoop repl k [] = Outcome.returned [] := by
  cases k <;> rfl

/-- Skipping `k` characters is scanning the text without them. -/
theorem replaceAllLoop_skip (repl : GoString → Outcome GoString) (k : Nat) (s : GoString) :
    replaceAllLoop repl k s = replaceAllLoop repl 0 (s.drop k) := by
  induction s generalizing k with
  | nil => simp [replaceAllLoop_nil]
  | cons c cs ih =>
    cases k with
    | zero => rfl
    | succ k => simpa [replaceAllLoop] using ih k

theorem takeWhile_digits_append (ds rest : List Char) (hds : ∀ c ∈ ds, c.isDigit = true)
    (hrest : ∀ c, rest.head? = some c → c.isDigit = false) :
    (ds ++ rest).takeWhile Char.isDigit = ds := by
  induction ds with
  | nil =>
    cases rest with
    | nil => rfl
    | cons c cs => simp [List.takeWhile, hrest c rfl]
  | cons d ds ih =>
    have hd : d.isDigit = true := hds d (List.mem_cons_self _ _)
    simp [List.takeWhile, hd, ih (fun c hc => hds c (List.mem_cons_of_mem _ hc))]

/-- The scan at a character where `varFinder` does not match copies the character. -/
theorem replaceAllLoop_copy (repl : GoString → Outcome GoString) (c : Char) (cs : GoString)
    (h : c ≠ '$' ∨ ∀ d, cs.head? = some d → d.isDigit = false) :
    replaceAllLoop repl 0 (c :: cs)
      = (replaceAllLoop repl 0 cs).bind fun out => Outcome.returned (c :: out) := by
  have hm : varFinderMatchAt (c :: cs) = none := by
    by_cases hc : c = '$'
    · subst hc
      have hd : ∀ d, cs.head? = some d → d.isDigit = false := by
        rcases h with h | h
        · exact absurd rfl h
        · exact h
      have : cs.takeWhile Char.isDigit = [] := by
        simpa using takeWhile_digits_append [] cs (by simp) hd
      simp [varFinderMatchAt, this]
    · unfold varFinderMatchAt
      split
      · rename_i heq
        simp at heq
        exact absurd heq.1 hc
      · rfl
  simp [replaceAllLoop, hm]

/-- The scan at a placeholder token replaces the token and resumes after its digits. -/
theorem replaceAllLoop_token (repl : GoString → Outcome GoString) (ds rest : GoString)
    (hne : ds ≠ []) (hds : ∀ c ∈ ds, c.isDigit = true)
    (hrest : ∀ c, rest.head? = some c → c.isDigit = false) :
    replaceAllLoop repl 0 ('$' :: (ds ++ rest))
      = (repl ('$' :: ds)).bind fun r =>
          (replaceAllLoop repl 0 rest).bind fun out => Outcome.returned (r ++ out) := by
  have htw := takeWhile_digits_append ds rest hds hrest
  have hm : varFinderMatchAt ('$' :: (ds ++ rest)) = some (1 + ds.length) := by
    simp [varFinderMatchAt, htw, hne]
  have hskip : replaceAllLoop repl ds.length (ds ++ rest) = replaceAllLoop repl 0 rest := by
    rw [replaceAllLoop_skip]; simp
  have htake : ('$' :: (ds ++ rest)).take (1 + ds.length) = '$' :: ds := by
    rw [Nat.add_comm]; simp
  simp only [replaceAllLoop, hm, htake, Nat.add_sub_cancel_left, hskip]

/-! ## `Atoi` and indexing on the tokens -/

theorem atoi_digits (ds : GoString) (hne : ds ≠ []) (hds : ∀ c ∈ ds, c.isDigit = true) :
    atoi ds = if decimalValue ds ≤ maxInt then ((decimalValue ds : Int), none)
      else ((maxInt : Int), some NumError.errRange) := by
  obtain ⟨d, ds', rfl⟩ := List.exists_cons_of_ne_nil hne
  have hd : d.isDigit = true := hds d (List.mem_cons_self _ _)
  have h1 : d ≠ '-' := by rintro rfl; exact absurd hd (by decide)
  have h2 : d ≠ '+' := by rintro rfl; exact absurd hd (by decide)
  have hall : (d :: ds').all Char.isDigit = true := by
    rw [List.all_eq_true]; exact hds
  unfold atoi
  simp only [List.head?_cons, Option.some.injEq, h1, h2, or_self, if_false, hall,
    not_true_eq_false, or_false, decide_False, Bool.false_eq_true, reduceCtorEq]

theorem index_of_lt {α : Type} (xs : List α) (i : Nat) (h : i < xs.length) :
    index xs (i : Int) = Outcome.returned (xs.get ⟨i, h⟩) := by
  have h2 : xs[i]? = some xs[i] := List.getElem?_eq_getElem h
  simp [index, h2]

theorem index_of_ge {α : Type} (xs : List α) (i : Nat) (h : xs.length ≤ i) :
    index xs (i : Int) = Outcome.panicked (RuntimePanic.indexOutOfRange (i : Int) xs.length) := by
  have h2 : xs[i]? = none := List.getElem?_eq_none h
  simp [index, h2]

/-- The replacement function of `makePatternHandler` on a placeholder token whose index is in
range. -/
theorem repl_in_range (captures : List GoString) (ds : GoString) (hne : ds ≠ [])
    (hds : ∀ c ∈ ds, c.isDigit = true) (hlt : decimalValue ds < captures.length)
    (hlen : captures.length ≤ maxInt) :
    index captures (atoi (('$' :: ds).drop 1)).1
      = Outcome.returned (captures.getD (decimalValue ds) []) := by
  have hle : decimalValue ds ≤ maxInt := by omega
  simp only [List.drop_succ_cons, List.drop_zero, atoi_digits ds hne hds, hle, if_true]
  rw [index_of_lt captures _ hlt]
  have h2 : captures[decimalValue ds]? = some captures[decimalValue ds] :=
    List.getElem?_eq_getElem hlt
  simp [h2]

/-- The replacement function of `makePatternHandler` on a placeholder token whose index is out
of range: the index expression faults. -/
theorem repl_out_of_range (captures : List GoString) (ds : GoString) (hne : ds ≠ [])
    (hds : ∀ c ∈ ds, c.isDigit = true) (hge : captures.length ≤ decimalValue ds)
    (hlen : captures.length ≤ maxInt) :
    index captures (atoi (('$' :: ds).drop 1)).1
      = Outcome.panicked (RuntimePanic.indexOutOfRange
          ((min (decimalValue ds) maxInt : Nat) : Int) captures.length) := by
  simp only [List.drop_succ_cons, List.drop_zero, atoi_digits ds hne hds]
  by_cases hle : decimalValue ds ≤ maxInt
  · simp only [hle, if_true, Nat.min_eq_left hle]
    exact index_of_ge captures _ hge
  · have hle2 : maxInt ≤ decimalValue ds := by omega
    simp only [hle, if_false, Nat.min_eq_right hle2]
    exact index_of_ge captures _ hlen

/-! ## Tokenizations -/

/-- The text after a token does not begin with a digit. -/
theorem text_head_not_digit (rest : List Segment)
    (h : ∀ s', rest.head? = some s' → s'.isDigitLit = false) :
    ∀ c, (templateText rest).head? = some c → c.isDigit = false := by
  intro c hc
  cases rest with
  | nil => simp [templateText] at hc
  | cons s rest =>
    have hs := h s rfl
    cases s with
    | lit d =>
      simp [templateText, Segment.text] at hc
      subst hc
      simpa [Segment.isDigitLit] using hs
    | placeholder ds =>
      simp [templateText, Segment.text] at hc
      subst hc
      decide

/-- The code on a tokenized template whose placeholders are all in range: the result is the
substitution. -/
theorem makePatternHandler_substitute (captures : List GoString) (hlen : captures.length ≤ maxInt)
    (segs : List Segment) (htok : IsTokenization segs)
    (hrange : ∀ i ∈ placeholderIndices segs, i < captures.length) :
    makePatternHandler (templateText segs) captures
      = Outcome.returned (substitute captures segs) := by
  unfold makePatternHandler replaceAllStringFunc
  induction segs with
  | nil => rfl
  | cons s rest ih =>
    obtain ⟨hwf, hnext, hrest⟩ := htok
    cases s with
    | lit c =>
      have ih' := ih hrest (fun i hi => hrange i (by simpa [placeholderIndices] using hi))
      have hcopy := replaceAllLoop_copy
        (fun s => index captures (atoi (s.drop 1)).1) c (templateText rest)
        (by
          by_cases hc : c = '$'
          · right
            exact text_head_not_digit rest (hnext (by simp [Segment.opensToken, hc]))
          · left; exact hc)
      simp only [templateText, Segment.text, List.singleton_append, substitute, Segment.subst]
      rw [hcopy, ih']
      rfl
    | placeholder ds =>
      have ih' := ih hrest (fun i hi => hrange i (by simp [placeholderIndices, hi]))
      have hlt : decimalValue ds < captures.length :=
        hrange _ (by simp [placeholderIndices])
      have htoken := replaceAllLoop_token
        (fun s => index captures (atoi (s.drop 1)).1) ds (templateText rest) hwf.1 hwf.2
        (text_head_not_digit rest (hnext rfl))
      simp only [templateText, Segment.text, List.cons_append, substitute, Segment.subst]
      rw [htoken]
      beta_reduce
      rw [repl_in_range captures ds hwf.1 hwf.2 hlt hlen, ih']
      rfl

/-- The code on a tokenized template with a placeholder out of range: the first such
placeholder makes the index expression fault. -/
theorem makePatternHandler_fault (captures : List GoString) (hlen : captures.length ≤ maxInt)
    (segs : List Segment) (htok : IsTokenization segs)
    (hout : ∃ i ∈ placeholderIndices segs, captures.length ≤ i) :
    ∃ i : Nat, captures.length ≤ i ∧ makePatternHandler (templateText segs) captures
      = Outcome.panicked (RuntimePanic.indexOutOfRange (i : Int) captures.length) := by
  unfold makePatternHandler replaceAllStringFunc
  induction segs with
  | nil => simp [placeholderIndices] at hout
  | cons s rest ih =>
    obtain ⟨hwf, hnext, hrest⟩ := htok
    cases s with
    | lit c =>
      obtain ⟨i, hi, heq⟩ := ih hrest (by simpa [placeholderIndices] using hout)
      have hcopy := replaceAllLoop_copy
        (fun s => index captures (atoi (s.drop 1)).1) c (templateText rest)
        (by
          by_cases hc : c = '$'
          · right
            exact text_head_not_digit rest (hnext (by simp [Segment.opensToken, hc]))
          · left; exact hc)
      refine ⟨i, hi, ?_⟩
      simp only [templateText, Segment.text, List.singleton_append]
      rw [hcopy, heq]
      rfl
    | placeholder ds =>
      have htoken := replaceAllLoop_token
        (fun s => index captures (atoi (s.drop 1)).1) ds (templateText rest) hwf.1 hwf.2
        (text_head_not_digit rest (hnext rfl))
      simp only [templateText, Segment.text, List.cons_append]
      rw [htoken]
      beta_reduce
      by_cases hlt : decimalValue ds < captures.length
      · have hout' : ∃ i ∈ placeholderIndices rest, captures.length ≤ i := by
          obtain ⟨i, hi, hle⟩ := hout
          simp only [placeholderIndices, List.mem_cons] at hi
          rcases hi with rfl | hi
          · omega
          · exact ⟨i, hi, hle⟩
        obtain ⟨i, hi, heq⟩ := ih hrest hout'
        refine ⟨i, hi, ?_⟩
        rw [repl_in_range captures ds hwf.1 hwf.2 hlt hlen, heq]
        rfl
      · have hge : captures.length ≤ decimalValue ds := by omega
        refine ⟨min (decimalValue ds) maxInt, Nat.le_min.mpr ⟨hge, hlen⟩, ?_⟩
        rw [repl_out_of_range captures ds hwf.1 hwf.2 hge hlen]
        rfl

theorem tokenizeLoop_nil (k : Nat) : tokenizeLoop k [] = [] := by
  cases k <;> rfl

theorem tokenizeLoop_skip (k : Nat) (s : GoString) :
    tokenizeLoop k s = tokenizeLoop 0 (s.drop k) := by
  induction s generalizing k with
  | nil => simp [tokenizeLoop_nil]
  | cons c cs ih =>
    cases k with
    | zero => rfl
    | succ k => simpa [tokenizeLoop] using ih k

/-- A scan that begins with a literal digit was run on a text that begins with that digit. -/
theorem tokenize_head_digit (u : GoString) (s' : Segment)
    (h : (tokenizeLoop 0 u).head? = some s') (hd : s'.isDigitLit = true) :
    ∃ d, u.head? = some d ∧ d.isDigit = true := by
  cases u with
  | nil => simp [tokenizeLoop] at h
  | cons c cs =>
    unfold tokenizeLoop at h
    split at h
    · simp at h
      subst h
      simp [Segment.isDigitLit] at hd
    · simp at h
      subst h
      exact ⟨c, rfl, by simpa [Segment.isDigitLit] using hd⟩

theorem dropWhile_head_not_digit (cs : GoString) :
    ∀ d, (cs.dropWhile Char.isDigit).head? = some d → d.isDigit = false := by
  intro d hd
  induction cs with
  | nil => simp at hd
  | cons c cs ih =>
    by_cases hc : c.isDigit = true
    · simp [List.dropWhile, hc] at hd
      exact ih hd
    · simp [List.dropWhile, hc] at hd
      subst hd
      simpa using hc

theorem drop_length_takeWhile (cs : GoString) :
    cs.drop (cs.takeWhile Char.isDigit).length = cs.dropWhile Char.isDigit := by
  induction cs with
  | nil => rfl
  | cons c cs ih =>
    by_cases hc : c.isDigit = true
    · simp [List.takeWhile, List.dropWhile, hc, ih]
    · simp [List.takeWhile, List.dropWhile, hc]

/-- Every template has a tokenization: the segments found by the scan spell the template
and satisfy the conditions of `IsTokenization`. -/
theorem tokenize_spec (template : GoString) :
    templateText (tokenize template) = template ∧ IsTokenization (tokenize template) := by
  unfold tokenize
  generalize hn : template.length = n
  induction n using Nat.strong_induction_on generalizing template with
  | _ n ih =>
    cases template with
    | nil => exact ⟨rfl, trivial⟩
    | cons c cs =>
      by_cases hc : c = '$' ∧ cs.takeWhile Char.isDigit ≠ []
      · have hlen : (cs.dropWhile Char.isDigit).length < n := by
          have := (List.dropWhile_sublist Char.isDigit (l := cs)).length_le
          simp at hn; omega
        obtain ⟨ih1, ih2⟩ := ih _ hlen (cs.dropWhile Char.isDigit) rfl
        have hunf : tokenizeLoop 0 (c :: cs) = Segment.placeholder (cs.takeWhile Char.isDigit)
            :: tokenizeLoop 0 (cs.dropWhile Char.isDigit) := by
          rw [← drop_length_takeWhile, ← tokenizeLoop_skip]
          simp [tokenizeLoop, hc]
        rw [hunf]
        refine ⟨?_, ⟨hc.2, fun d hd => ?_⟩, fun _ s' hs' => ?_, ih2⟩
        · simp [templateText, Segment.text, ih1, hc.1, List.takeWhile_append_dropWhile]
        · exact (List.mem_takeWhile_imp hd)
        · cases hdig : s'.isDigitLit with
          | false => rfl
          | true =>
            obtain ⟨d, hd1, hd2⟩ := tokenize_head_digit _ s' hs' hdig
            have := dropWhile_head_not_digit cs d hd1
            simp [hd2] at this
      · have hlen : cs.length < n := by simp at hn; omega
        obtain ⟨ih1, ih2⟩ := ih _ hlen cs rfl
        have hunf : tokenizeLoop 0 (c :: cs) = Segment.lit c :: tokenizeLoop 0 cs := by
          simp only [tokenizeLoop, hc, if_false]
        rw [hunf]
        refine ⟨?_, trivial, fun hopen s' hs' => ?_, ih2⟩
        · simp [templateText, Segment.text, ih1]
        · cases hdig : s'.isDigitLit with
          | false => rfl
          | true =>
            obtain ⟨d, hd1, hd2⟩ := tokenize_head_digit _ s' hs' hdig
            exfalso
            apply hc
            refine ⟨by simpa [Segment.opensToken] using hopen, ?_⟩
            cases cs with
            | nil => simp at hd1
            | cons e es =>
              simp at hd1
              subst hd1
              simp [List.takeWhile, hd2]

/-- A template has one tokenization only: the segments found by the scan. -/
theorem tokenize_unique (segs : List Segment) (htok : IsTokenization segs) :
    tokenize (templateText segs) = segs := by
  unfold tokenize
  induction segs with
  | nil => rfl
  | cons s rest ih =>
    obtain ⟨hwf, hnext, hrest⟩ := htok
    cases s with
    | lit c =>
      have hno : ¬ (c = '$' ∧ (templateText rest).takeWhile Char.isDigit ≠ []) := by
        rintro ⟨hc, hne⟩
        apply hne
        simpa using takeWhile_digits_append [] (templateText rest) (by simp)
          (text_head_not_digit rest (hnext (by simp [Segment.opensToken, hc])))
      show tokenizeLoop 0 (c :: templateText rest) = Segment.lit c :: rest
      simp only [tokenizeLoop, hno, if_false, ih hrest]
    | placeholder ds =>
      have htw := takeWhile_digits_append ds (templateText rest) hwf.2
        (text_head_not_digit rest (hnext rfl))
      have hskip : tokenizeLoop ds.length (ds ++ templateText rest)
          = tokenizeLoop 0 (templateText rest) := by
        rw [tokenizeLoop_skip]; simp
      show tokenizeLoop 0 ('$' :: (ds ++ templateText rest)) = Segment.placeholder ds :: rest
      simp only [tokenizeLoop, htw, hwf.1, ne_eq, not_false_eq_true, and_self, if_true, hskip,
        ih hrest]

/-- Without a `$` followed by a digit the scan copies the whole text. -/
theorem makePatternHandler_no_placeholder (template : GoString) (captures : List GoString)
    (h : hasPlaceholder template = false) :
    makePatternHandler template captures = Outcome.returned template := by
  unfold makePatternHandler replaceAllStringFunc
  induction template with
  | nil => rfl
  | cons c cs ih =>
    have hcs : hasPlaceholder cs = false := by
      cases cs with
      | nil => rfl
      | cons d rest =>
        simp only [hasPlaceholder, Bool.or_eq_false_iff] at h
        exact h.2
    have hcopy := replaceAllLoop_copy
      (fun s => index captures (atoi (s.drop 1)).1) c cs
      (by
        by_cases hc : c = '$'
        · right
          intro d hd
          cases cs with
          | nil => simp at hd
          | cons e es =>
            simp at hd
            subst hd
            simp only [hasPlaceholder, Bool.or_eq_false_iff, Bool.and_eq_false_iff] at h
            rcases h.1 with h1 | h1
            · simp [hc] at h1
            · exact h1
        · left; exact hc)
    rw [hcopy, ih hcs]
    rfl

/-! ## Maps -/

theorem RangeOrder.visit_perm {α : Type} (ro : RangeOrder) (l : List α) :
    (ro.visit l).Perm l := by
  have h := (ro.order_perm l.length).map l.get
  rwa [List.finRange_map_get] at h

theorem RangeOrder.mem_visit {α : Type} (ro : RangeOrder) (l : List α) (a : α) :
    a ∈ ro.visit l ↔ a ∈ l :=
  (ro.visit_perm l).mem_iff

theorem visit_insertionOrder {α : Type} (l : List α) : insertionOrder.visit l = l := by
  simp [RangeOrder.visit, insertionOrder, List.finRange_map_get]

theorem visit_reverseOrder {α : Type} (l : List α) : reverseOrder.visit l = l.reverse := by
  simp only [RangeOrder.visit, reverseOrder]
  rw [List.map_reverse, List.finRange_map_get]

/-- Assigning under a key the map does not hold adds one entry at the end. -/
theorem mapInsert_fresh {κ ν : Type} [BEq κ] (m : List (κ × ν)) (k : κ) (v : ν)
    (h : ∀ e ∈ m, (e.1 == k) = false) : mapInsert m k v = m ++ [(k, v)] := by
  have hany : m.any (fun e => e.1 == k) = false := by
    rw [List.any_eq_false]
    intro e he
    simp [h e he]
  simp [mapInsert, hany]

/-! ## The construction loop -/

theorem entriesFrom_addr (ro : RangeOrder) (i : Nat) (specs : List (config × Regexp)) :
    ∀ e ∈ entriesFrom ro i specs, i ≤ e.1.addr ∧ e.1.addr < i + specs.length := by
  induction specs generalizing i with
  | nil => intro e he; simp [entriesFrom] at he
  | cons spec rest ih =>
    intro e he
    simp only [entriesFrom, List.mem_cons] at he
    rcases he with rfl | he
    · simp [entryOf]
    · have := ih (i + 1) e he
      simp only [List.length_cons]
      omega

/-- When every key loads and compiles, the loop adds the entries of the specifications in the
order of the keys and returns no error. -/
theorem newMogrifierMapLoop_ok (ro : RangeOrder) (process : GoString → Except GoString config)
    (compile : GoString → Except GoString Regexp) (keys : List GoString)
    (specs : List (config × Regexp)) (h : List.Forall₂ (Loads process compile) keys specs)
    (i : Nat) (acc : List (RegexpPtr × Mogrifier)) (hacc : ∀ e ∈ acc, e.1.addr < i) :
    newMogrifierMapLoop ro process compile i keys acc
      = (some (acc ++ entriesFrom ro i specs), none) := by
  induction h generalizing i acc with
  | nil => simp [newMogrifierMapLoop, entriesFrom]
  | @cons key spec keys specs hload _ ih =>
    obtain ⟨h1, h2⟩ := hload
    have hfresh : ∀ e ∈ acc, (e.1 == (⟨i, spec.2⟩ : RegexpPtr)) = false := by
      intro e he
      have := hacc e he
      show (e.1.addr == i) = false
      simp; omega
    simp only [newMogrifierMapLoop, h1, h2]
    rw [mapInsert_fresh _ _ _ hfresh, ih (i + 1)]
    · simp [entriesFrom, entryOf]
    · intro e he
      simp only [List.mem_append, List.mem_singleton] at he
      rcases he with he | rfl
      · have := hacc e he; omega
      · simp

/-- When the keys before `key` load and compile and `key` fails, the loop returns the nil map
and the error of `key`. -/
theorem newMogrifierMapLoop_fail (ro : RangeOrder) (process : GoString → Except GoString config)
    (compile : GoString → Except GoString Regexp) (pre : List GoString)
    (specs : List (config × Regexp)) (h : List.Forall₂ (Loads process compile) pre specs)
    (key : GoString) (post : List GoString) (msg : GoString)
    (hfail : Fails process compile key msg)
    (i : Nat) (acc : List (RegexpPtr × Mogrifier)) (hacc : ∀ e ∈ acc, e.1.addr < i) :
    newMogrifierMapLoop ro process compile i (pre ++ key :: post) acc = (none, some msg) := by
  induction h generalizing i acc with
  | nil =>
    rcases hfail with ⟨err, h1, rfl⟩ | ⟨cfg, err, h1, h2, rfl⟩
    · simp only [List.nil_append, newMogrifierMapLoop, h1]
    · simp only [List.nil_append, newMogrifierMapLoop, h1, h2]
  | @cons k spec keys specs hload _ ih =>
    obtain ⟨h1, h2⟩ := hload
    have hfresh : ∀ e ∈ acc, (e.1 == (⟨i, spec.2⟩ : RegexpPtr)) = false := by
      intro e he
      have := hacc e he
      show (e.1.addr == i) = false
      simp; omega
    simp only [List.cons_append, newMogrifierMapLoop, h1, h2]
    rw [mapInsert_fresh _ _ _ hfresh]
    apply ih (i + 1)
    intro e he
    simp only [List.mem_append, List.mem_singleton] at he
    rcases he with he | rfl
    · have := hacc e he; omega
    · simp

/-- Every list of keys either loads and compiles as a whole or has a first key that fails. -/
theorem loads_or_fails (process : GoString → Except GoString config)
    (compile : GoString → Except GoString Regexp) (keys : List GoString) :
    (∃ specs, List.Forall₂ (Loads process compile) keys specs)
      ∨ (∃ pre specs key post msg, keys = pre ++ key :: post
          ∧ List.Forall₂ (Loads process compile) pre specs
          ∧ Fails process compile key msg) := by
  induction keys with
  | nil => exact Or.inl ⟨[], List.Forall₂.nil⟩
  | cons k ks ih =>
    cases h1 : process (envPrefix ++ "_".toList ++ k) with
    | error err =>
      exact Or.inr ⟨[], [], k, ks, _, rfl, List.Forall₂.nil, Or.inl ⟨err, h1, rfl⟩⟩
    | ok cfg =>
      cases h2 : compile cfg.Pattern with
      | error err =>
        exact Or.inr ⟨[], [], k, ks, _, rfl, List.Forall₂.nil, Or.inr ⟨cfg, err, h1, h2, rfl⟩⟩
      | ok re =>
        have hk : Loads process compile k (cfg, re) := ⟨h1, h2⟩
        rcases ih with ⟨specs, hs⟩ | ⟨pre, specs, key, post, msg, rfl, hs, hf⟩
        · exact Or.inl ⟨(cfg, re) :: specs, List.Forall₂.cons hk hs⟩
        · exact Or.inr ⟨k :: pre, (cfg, re) :: specs, key, post, msg, rfl,
            List.Forall₂.cons hk hs, hf⟩

/-- A successful construction holds the entries of the specifications of its keys. -/
theorem newMogrifierMapFromEnv_entries (ro : RangeOrder)
    (process : GoString → Except GoString config)
    (compile : GoString → Except GoString Regexp) (keys : List GoString)
    (m : List (RegexpPtr × Mogrifier))
    (h : (newMogrifierMapFromEnv ro process compile keys).1 = some m) :
    ∃ specs, List.Forall₂ (Loads process compile) keys specs ∧ m = entriesFrom ro 0 specs := by
  rcases loads_or_fails process compile keys with
    ⟨specs, hs⟩ | ⟨pre, specs, key, post, msg, rfl, hs, hf⟩
  · refine ⟨specs, hs, ?_⟩
    have := newMogrifierMapLoop_ok ro process compile keys specs hs 0 [] (by simp)
    unfold newMogrifierMapFromEnv at h
    rw [this] at h
    simpa using h.symm
  · have := newMogrifierMapLoop_fail ro process compile pre specs hs key post msg hf 0 []
      (by simp)
    unfold newMogrifierMapFromEnv at h
    rw [this] at h
    simp at h

/-! ## The dispatch loop -/

/-- The loop applies the first entry, in the order visited, whose matcher matches; without
one it returns the name and the nil slice. -/
theorem mogrifyLoop_find (ro : RangeOrder) (name : GoString)
    (l : List (RegexpPtr × Mogrifier)) :
    mogrifyLoop ro name l
      = match l.find? (matchesName name) with
        | some e => applyEntry ro name e
        | none => Outcome.returned (name, none) := by
  induction l with
  | nil => rfl
  | cons e rest ih =>
    obtain ⟨matcher, mogrifier⟩ := e
    by_cases hm : (matcher.target.findStringSubmatch name).length = 0
    · simp [mogrifyLoop, hm, ih, List.find?, matchesName]
    · have hb : ((matcher.target.findStringSubmatch name).length != 0) = true := by
        simpa using hm
      simp [mogrifyLoop, hm, List.find?, matchesName, applyEntry, hb]

/-! ## The closure of an entry -/

theorem visit_nil {α : Type} (ro : RangeOrder) : ro.visit ([] : List α) = [] :=
  (ro.visit_perm []).eq_nil

/-- The handlers of the tag templates: every handler is the expansion of one of the templates
configured under its key. -/
theorem mem_makeTagHandlers (ro : RangeOrder) (tags : List (GoString × GoString)) :
    ∀ kh ∈ makeTagHandlers ro tags,
      ∃ t, (kh.1, t) ∈ tags ∧ kh.2 = makePatternHandler t := by
  unfold makeTagHandlers
  have key : ∀ (V : List (GoString × GoString))
      (acc : List (GoString × (List GoString → Outcome GoString))),
      (∀ kv ∈ V, kv ∈ tags) →
      (∀ kh ∈ acc, ∃ t, (kh.1, t) ∈ tags ∧ kh.2 = makePatternHandler t) →
      ∀ kh ∈ V.foldl (fun th kv => mapInsert th kv.1 (makePatternHandler kv.2)) acc,
        ∃ t, (kh.1, t) ∈ tags ∧ kh.2 = makePatternHandler t := by
    intro V
    induction V with
    | nil => intro acc _ hacc; exact hacc
    | cons kv V ih =>
      intro acc hV hacc
      simp only [List.foldl_cons]
      apply ih
      · intro kv' h'; exact hV kv' (List.mem_cons_of_mem _ h')
      · intro kh hkh
        have hkv : (kv.1, kv.2) ∈ tags := hV kv (List.mem_cons_self _ _)
        unfold mapInsert at hkh
        split at hkh
        · simp only [List.mem_map] at hkh
          obtain ⟨e, he, rfl⟩ := hkh
          by_cases hek : (e.1 == kv.1) = true
          · have : e.1 = kv.1 := by simpa using hek
            simp only [hek, if_true]
            exact ⟨kv.2, by rw [this]; exact hkv, rfl⟩
          · simp only [hek, if_false]
            exact hacc e he
        · simp only [List.mem_append, List.mem_singleton] at hkh
          rcases hkh with hkh | rfl
          · exact hacc kh hkh
          · exact ⟨kv.2, hkv, rfl⟩
  exact key _ [] (fun kv h => (ro.mem_visit tags kv).mp h)
    (fun kh hkh => absurd hkh (List.not_mem_nil _))

/-- With distinct tag keys the handlers are those of the pairs, one per pair. -/
theorem makeTagHandlers_nodup (ro : RangeOrder) (tags : List (GoString × GoString))
    (hnd : (tags.map Prod.fst).Nodup) :
    makeTagHandlers ro tags
      = (ro.visit tags).map fun kv => (kv.1, makePatternHandler kv.2) := by
  unfold makeTagHandlers
  have hV : ((ro.visit tags).map Prod.fst).Nodup :=
    ((ro.visit_perm tags).map Prod.fst).nodup_iff.mpr hnd
  have key : ∀ (V : List (GoString × GoString))
      (acc : List (GoString × (List GoString → Outcome GoString))),
      (acc.map Prod.fst ++ V.map Prod.fst).Nodup →
      V.foldl (fun th kv => mapInsert th kv.1 (makePatternHandler kv.2)) acc
        = acc ++ V.map fun kv => (kv.1, makePatternHandler kv.2) := by
    intro V
    induction V with
    | nil => intro acc _; simp
    | cons kv V ih =>
      intro acc hnd'
      have hfresh : ∀ e ∈ acc, (e.1 == kv.1) = false := by
        intro e he
        have hdisj := (List.nodup_append.mp hnd').2.2
        have : e.1 ≠ kv.1 := by
          intro heq
          exact hdisj (List.mem_map_of_mem Prod.fst he) (by simp [heq])
        simpa using this
      simp only [List.foldl_cons]
      rw [mapInsert_fresh _ _ _ hfresh, ih]
      · simp
      · simpa [List.append_assoc] using hnd'
  simpa using key _ [] (by simpa using hV)

/-- The tag loop when every handler returns: one tag string per entry, in the order visited. -/
theorem collectTags_returned (submatches : List GoString)
    (value : GoString × (List GoString → Outcome GoString) → GoString)
    (V : List (GoString × (List GoString → Outcome GoString)))
    (h : ∀ kh ∈ V, kh.2 submatches = Outcome.returned (value kh)) (acc : List GoString) :
    collectTags submatches V acc
      = Outcome.returned (acc ++ V.map fun kh => tagString kh.1 (value kh)) := by
  induction V generalizing acc with
  | nil => simp [collectTags]
  | cons kh V ih =>
    obtain ⟨k, hdl⟩ := kh
    have h1 := h (k, hdl) (List.mem_cons_self _ _)
    simp only at h1
    simp only [collectTags, h1, Outcome.bind_returned]
    rw [ih (fun kh' hkh' => h kh' (List.mem_cons_of_mem _ hkh'))]
    simp [tagString]

/-- The closure of an entry never returns the nil slice. -/
theorem mogrifierFunc_not_nil (nameHandler : List GoString → Outcome GoString)
    (tagHandlers : List (GoString × (List GoString → Outcome GoString)))
    (ro : RangeOrder) (submatches : List GoString) (n : GoString) :
    mogrifierFunc nameHandler tagHandlers ro submatches ≠ Outcome.returned (n, none) := by
  unfold mogrifierFunc
  cases nameHandler submatches with
  | panicked p => simp
  | returned a =>
    cases collectTags submatches (ro.visit tagHandlers) [] with
    | panicked p => simp
    | returned tags => simp

/-- The entries made from specifications that load from the keys. -/
theorem entries_of_loads (ro : RangeOrder) (process : GoString → Except GoString config)
    (compile : GoString → Except GoString Regexp) (keys : List GoString)
    (specs : List (config × Regexp)) (h : List.Forall₂ (Loads process compile) keys specs)
    (i : Nat) :
    ∀ e ∈ entriesFrom ro i specs,
      ∃ key ∈ keys, ∃ spec, Loads process compile key spec ∧ ∃ j, e = entryOf ro j spec := by
  induction h generalizing i with
  | nil => intro e he; simp [entriesFrom] at he
  | @cons key spec keys specs hload _ ih =>
    intro e he
    simp only [entriesFrom, List.mem_cons] at he
    rcases he with rfl | he
    · exact ⟨key, List.mem_cons_self _ _, spec, hload, i, rfl⟩
    · obtain ⟨k, hk, sp, hsp, j, rfl⟩ := ih (i + 1) e he
      exact ⟨k, List.mem_cons_of_mem _ hk, sp, hsp, j, rfl⟩

/-! ## Template expansion: the claims -/

/-- C3. Every template splits into placeholder tokens `$<index>` and characters outside
them, and for every such splitting whose placeholder indices are all below the number of
captures, `makePatternHandler` returns the template with each token replaced by
`captures[index]` and each other character kept in place.  (`hlen`: the length of a Go slice
is an `int`.) -/
theorem makePatternHandler_replaces_placeholders (template : GoString)
    (captures : List GoString) (hlen : captures.length ≤ maxInt) :
    (∃ segs, templateText segs = template ∧ IsTokenization segs)
    ∧ ∀ segs, templateText segs = template → IsTokenization segs →
        (∀ i ∈ placeholderIndices segs, i < captures.length) →
        makePatternHandler template captures
          = Outcome.returned (substitute captures segs) := by
  refine ⟨⟨tokenize template, tokenize_spec template⟩, ?_⟩
  intro segs htext htok hrange
  rw [← htext]
  exact makePatternHandler_substitute captures hlen segs htok hrange

/-- C3, on the template `foo.$1.bar$` with the captures of `foo.42.bar`. -/
theorem makePatternHandler_replaces_placeholders_witness :
    ["foo.42.bar".toList, "42".toList].length ≤ maxInt
    ∧ makePatternHandler "foo.$1.bar$".toList ["foo.42.bar".toList, "42".toList]
        = Outcome.returned "foo.42.bar$".toList :=
  ⟨by decide,
    (makePatternHandler_replaces_placeholders "foo.$1.bar$".toList
      ["foo.42.bar".toList, "42".toList] (by decide)).2
      (tokenize "foo.$1.bar$".toList) (tokenize_spec _).1 (tokenize_spec _).2 (by decide)⟩

/-- C8 (counterexample). The template `id-$1` with the single capture `baz`: the call does
not return an error value, the index expression `matches[1]` faults. -/
theorem makePatternHandler_out_of_range_counterexample :
    makePatternHandler "id-$1".toList ["baz".toList]
      = Outcome.panicked (RuntimePanic.indexOutOfRange 1 1) := by
  decide

/-- C8 (amended). For every template with a placeholder whose index is not below the number
of captures, `makePatternHandler` does not return: it panics with the Go runtime fault
"index out of range", raised by the index expression `matches[i]`. -/
theorem makePatternHandler_out_of_range_panics (template : GoString)
    (captures : List GoString) (hlen : captures.length ≤ maxInt)
    (hout : ¬ PlaceholdersBelow template captures.length) :
    ∃ i : Nat, captures.length ≤ i ∧ makePatternHandler template captures
      = Outcome.panicked (RuntimePanic.indexOutOfRange (i : Int) captures.length) := by
  have hspec := tokenize_spec template
  have hex : ∃ i ∈ placeholderIndices (tokenize template), captures.length ≤ i := by
    unfold PlaceholdersBelow at hout
    push_neg at hout
    exact hout
  have := makePatternHandler_fault captures hlen (tokenize template) hspec.2 hex
  rwa [hspec.1] at this

/-- C8 (amended), on the template `a$0$2` with two captures. -/
theorem makePatternHandler_out_of_range_panics_witness :
    ["x".toList, "y".toList].length ≤ maxInt
    ∧ ¬ PlaceholdersBelow "a$0$2".toList ["x".toList, "y".toList].length
    ∧ ∃ i : Nat, ["x".toList, "y".toList].length ≤ i
        ∧ makePatternHandler "a$0$2".toList ["x".toList, "y".toList]
          = Outcome.panicked
              (RuntimePanic.indexOutOfRange (i : Int) ["x".toList, "y".toList].length) :=
  ⟨by decide, by decide,
    makePatternHandler_out_of_range_panics "a$0$2".toList ["x".toList, "y".toList]
      (by decide) (by decide)⟩

/-- C10. A template without a placeholder (no `$` immediately followed by a decimal digit) is
returned unchanged, whatever the captures, the empty sequence included. -/
theorem makePatternHandler_without_placeholder (template : GoString)
    (captures : List GoString) (h : hasPlaceholder template = false) :
    makePatternHandler template captures = Outcome.returned template :=
  makePatternHandler_no_placeholder template captures h

/-- C10, on the template `foo.bar$x$` with no capture. -/
theorem makePatternHandler_without_placeholder_witness :
    hasPlaceholder "foo.bar$x$".toList = false
    ∧ makePatternHandler "foo.bar$x$".toList [] = Outcome.returned "foo.bar$x$".toList :=
  ⟨by decide, makePatternHandler_without_placeholder "foo.bar$x$".toList [] (by decide)⟩

/-! ## Dispatch: the claims -/

/-- C2. When no matcher of the map matches the name, `mogrify` returns the name unchanged with
the nil (empty) slice of tags, whatever the order of iteration. -/
theorem mogrify_without_match (ro : RangeOrder) (m : mogrifierMap) (name : GoString)
    (h : ∀ e ∈ entriesOf m, matchesName name e = false) :
    mogrify ro m name = Outcome.returned (name, none) := by
  cases m with
  | none => rfl
  | some entries =>
    have hnone : (ro.visit entries).find? (matchesName name) = none := by
      rw [List.find?_eq_none]
      intro e he
      have := h e ((ro.mem_visit entries e).mp he)
      simp [this]
    simp only [mogrify, mogrifyLoop_find, hnone]

/-- C2, on the map of the mogrifiers `A` and `B` and the name `foo`. -/
theorem mogrify_without_match_witness :
    (∀ e ∈ entriesOf (some (entriesFrom insertionOrder 0 [(cfgA, reBaz), (cfgB, reB)])),
        matchesName "foo".toList e = false)
    ∧ mogrify reverseOrder (some (entriesFrom insertionOrder 0 [(cfgA, reBaz), (cfgB, reB)]))
        "foo".toList = Outcome.returned ("foo".toList, none) :=
  ⟨fun e he => by
      simp only [entriesOf, entriesFrom, List.mem_cons, List.mem_singleton, List.not_mem_nil,
        or_false] at he
      rcases he with rfl | rfl <;> rfl,
    mogrify_without_match reverseOrder
      (some (entriesFrom insertionOrder 0 [(cfgA, reBaz), (cfgB, reB)])) "foo".toList
      (fun e he => by
        simp only [entriesOf, entriesFrom, List.mem_cons, List.mem_singleton, List.not_mem_nil,
          or_false] at he
        rcases he with rfl | rfl <;> rfl)⟩

/-- C5. Construction from the empty list of keys succeeds with an empty map, and `mogrify` on
that map, as on the nil map, returns every name unchanged with no tags. -/
theorem mogrify_on_empty_map (ro : RangeOrder) (process : GoString → Except GoString config)
    (compile : GoString → Except GoString Regexp) (ro' : RangeOrder) (name : GoString) :
    newMogrifierMapFromEnv ro process compile [] = (some [], none)
    ∧ mogrify ro' (newMogrifierMapFromEnv ro process compile []).1 name
        = Outcome.returned (name, none)
    ∧ mogrify ro' none name = Outcome.returned (name, none) := by
  refine ⟨rfl, ?_, rfl⟩
  show mogrifyLoop ro' name (ro'.visit []) = _
  rw [visit_nil]
  rfl

/-- C6. The result of `mogrify` is the fallback (the name, no tags) when no entry matches,
and otherwise exactly the result of applying one single entry of the map whose matcher
matches the name.  On a map made by `newMogrifierMapFromEnv` the fallback value (the nil
slice of tags) is returned only when no entry matches. -/
theorem mogrify_applies_one_entry (ro' : RangeOrder) (name : GoString) :
    (∀ m : mogrifierMap,
      ((∀ e ∈ entriesOf m, matchesName name e = false)
          ∧ mogrify ro' m name = Outcome.returned (name, none))
        ∨ (∃ e ∈ entriesOf m, matchesName name e = true
            ∧ mogrify ro' m name = applyEntry ro' name e))
    ∧ (∀ (ro : RangeOrder) (process : GoString → Except GoString config)
        (compile : GoString → Except GoString Regexp) (keys : List GoString) (n : GoString),
        mogrify ro' (newMogrifierMapFromEnv ro process compile keys).1 name
            = Outcome.returned (n, none) →
          ∀ e ∈ entriesOf (newMogrifierMapFromEnv ro process compile keys).1,
            matchesName name e = false) := by
  have hfirst : ∀ m : mogrifierMap,
      ((∀ e ∈ entriesOf m, matchesName name e = false)
          ∧ mogrify ro' m name = Outcome.returned (name, none))
        ∨ (∃ e ∈ entriesOf m, matchesName name e = true
            ∧ mogrify ro' m name = applyEntry ro' name e) := by
    intro m
    cases m with
    | none => exact Or.inl ⟨fun e he => absurd he (List.not_mem_nil _), rfl⟩
    | some entries =>
      cases hfind : (ro'.visit entries).find? (matchesName name) with
      | none =>
        left
        rw [List.find?_eq_none] at hfind
        refine ⟨fun e he => ?_, ?_⟩
        · have := hfind e ((ro'.mem_visit entries e).mpr he)
          simpa using this
        · have hnone : (ro'.visit entries).find? (matchesName name) = none := by
            rw [List.find?_eq_none]; exact hfind
          simp only [mogrify, mogrifyLoop_find, hnone]
      | some e =>
        right
        refine ⟨e, (ro'.mem_visit entries e).mp (List.mem_of_find?_eq_some hfind),
          List.find?_some hfind, ?_⟩
        simp only [mogrify, mogrifyLoop_find, hfind]
  refine ⟨hfirst, ?_⟩
  intro ro process compile keys n hres e he
  rcases hfirst (newMogrifierMapFromEnv ro process compile keys).1 with h | ⟨e', he', _, happ⟩
  · exact h.1 e he
  · exfalso
    cases hm : (newMogrifierMapFromEnv ro process compile keys).1 with
    | none => rw [hm] at he'; exact absurd he' (List.not_mem_nil _)
    | some entries =>
      rw [hm] at he'
      obtain ⟨specs, hs, rfl⟩ :=
        newMogrifierMapFromEnv_entries ro process compile keys entries hm
      obtain ⟨_, _, spec, _, j, rfl⟩ :=
        entries_of_loads ro process compile keys specs hs 0 e' he'
      rw [happ] at hres
      exact mogrifierFunc_not_nil _ _ _ _ _ hres

/-- The closure of an entry with distinct tag keys, when the name template and every tag
template expand: the expanded name and one tag string per pair, in some order. -/
theorem mogrifierFunc_returned (ro ro' : RangeOrder) (cfg : config) (c : List GoString)
    (hkeys : (cfg.Tags.map Prod.fst).Nodup) (n : GoString)
    (value : GoString × GoString → GoString)
    (hname : makePatternHandler cfg.Name c = Outcome.returned n)
    (htags : ∀ kt ∈ cfg.Tags, makePatternHandler kt.2 c = Outcome.returned (value kt)) :
    ∃ tags, mogrifierFunc (makePatternHandler cfg.Name) (makeTagHandlers ro cfg.Tags) ro' c
        = Outcome.returned (n, some tags)
      ∧ tags.Perm (cfg.Tags.map fun kt => tagString kt.1 (value kt)) := by
  let g : GoString × GoString → GoString × (List GoString → Outcome GoString) :=
    fun kv => (kv.1, makePatternHandler kv.2)
  let value' : GoString × (List GoString → Outcome GoString) → GoString :=
    fun kh => match kh.2 c with
      | Outcome.returned v => v
      | Outcome.panicked _ => []
  have hH : makeTagHandlers ro cfg.Tags = (ro.visit cfg.Tags).map g :=
    makeTagHandlers_nodup ro cfg.Tags hkeys
  have hg : ∀ kt ∈ cfg.Tags, (g kt).2 c = Outcome.returned (value kt) ∧ value' (g kt) = value kt := by
    intro kt hkt
    have h1 : (g kt).2 c = Outcome.returned (value kt) := htags kt hkt
    refine ⟨h1, ?_⟩
    show (match (g kt).2 c with
      | Outcome.returned v => v
      | Outcome.panicked _ => []) = value kt
    rw [h1]
  have hV : ∀ kh ∈ ro'.visit ((ro.visit cfg.Tags).map g),
      kh.2 c = Outcome.returned (value' kh) := by
    intro kh hkh
    have h1 := (ro'.mem_visit _ kh).mp hkh
    obtain ⟨kt, hkt, rfl⟩ := List.mem_map.mp h1
    have hkt' := (ro.mem_visit _ kt).mp hkt
    rw [(hg kt hkt').2]
    exact (hg kt hkt').1
  refine ⟨(ro'.visit ((ro.visit cfg.Tags).map g)).map fun kh => tagString kh.1 (value' kh),
    ?_, ?_⟩
  · unfold mogrifierFunc
    rw [hname, hH, collectTags_returned c value' _ hV []]
    rfl
  · have hperm : (ro'.visit ((ro.visit cfg.Tags).map g)).Perm (cfg.Tags.map g) :=
      (ro'.visit_perm _).trans ((ro.visit_perm cfg.Tags).map g)
    have h2 := hperm.map fun kh => tagString kh.1 (value' kh)
    have h3 : (cfg.Tags.map g).map (fun kh => tagString kh.1 (value' kh))
        = cfg.Tags.map fun kt => tagString kt.1 (value kt) := by
      rw [List.map_map]
      apply List.map_congr_left
      intro kt hkt
      show tagString (g kt).1 (value' (g kt)) = tagString kt.1 (value kt)
      rw [(hg kt hkt).2]
    rwa [h3] at h2

/-- C4. Applying an entry (with distinct tag keys, as in a Go map) to captures `c` on which its
templates expand yields the expansion of the name template and, for each (tagKey, template)
pair, exactly one tag string `tagKey + ":" + expansion`, in some order and nothing else; with
no tag templates it yields zero tags; and the entry with name template `foo.bar` and tag
templates `id: $1` yields `foo.bar` and the single tag `id:42` on the captures
`foo.42.bar`, `42`. -/
theorem applying_an_entry (ro ro' : RangeOrder) (i : Nat) (cfg : config) (re : Regexp)
    (c : List GoString) (hkeys : (cfg.Tags.map Prod.fst).Nodup) :
    (∀ (n : GoString) (value : GoString × GoString → GoString),
        makePatternHandler cfg.Name c = Outcome.returned n →
        (∀ kt ∈ cfg.Tags, makePatternHandler kt.2 c = Outcome.returned (value kt)) →
        ∃ tags, (entryOf ro i (cfg, re)).2 ro' c = Outcome.returned (n, some tags)
          ∧ tags.Perm (cfg.Tags.map fun kt => tagString kt.1 (value kt)))
    ∧ (cfg.Tags = [] → ∀ n, makePatternHandler cfg.Name c = Outcome.returned n →
        (entryOf ro i (cfg, re)).2 ro' c = Outcome.returned (n, some []))
    ∧ (entryOf ro i (⟨cfg.Pattern, [("id".toList, "$1".toList)], "foo.bar".toList⟩, re)).2 ro'
          ["foo.42.bar".toList, "42".toList]
        = Outcome.returned ("foo.bar".toList, some ["id:42".toList]) := by
  refine ⟨fun n value hname htags =>
    mogrifierFunc_returned ro ro' cfg c hkeys n value hname htags, ?_, ?_⟩
  · intro hnil n hname
    obtain ⟨tags, h1, h2⟩ := mogrifierFunc_returned ro ro' cfg c hkeys n (fun _ => []) hname
      (by rw [hnil]; intro kt hkt; exact absurd hkt (List.not_mem_nil _))
    rw [hnil] at h2
    have : tags = [] := by simpa using h2
    rw [this] at h1
    exact h1
  · obtain ⟨tags, h1, h2⟩ := mogrifierFunc_returned ro ro'
      ⟨cfg.Pattern, [("id".toList, "$1".toList)], "foo.bar".toList⟩
      ["foo.42.bar".toList, "42".toList] (List.nodup_singleton _) "foo.bar".toList
      (fun _ => "42".toList)
      (show makePatternHandler "foo.bar".toList ["foo.42.bar".toList, "42".toList]
        = Outcome.returned "foo.bar".toList by decide)
      (by
        intro kt hkt
        have : kt = ("id".toList, "$1".toList) := by simpa using hkt
        subst this
        decide)
    have : tags = ["id:42".toList] := by
      have h3 : tags.Perm [tagString "id".toList "42".toList] := h2
      have h4 := List.perm_singleton.mp h3
      rw [h4]
      decide
    rw [this] at h1
    exact h1

/-- C4, on the configuration of mogrifier `A` and the captures of `baz`. -/
theorem applying_an_entry_witness :
    (cfgA.Tags.map Prod.fst).Nodup
    ∧ ∃ tags, (entryOf reverseOrder 0 (cfgA, reBaz)).2 insertionOrder ["baz".toList]
          = Outcome.returned ("first".toList, some tags)
        ∧ tags.Perm (cfgA.Tags.map fun kt => tagString kt.1 "baz".toList) :=
  ⟨by decide,
    (applying_an_entry reverseOrder insertionOrder 0 cfgA reBaz ["baz".toList] (by decide)).1
      "first".toList (fun _ => "baz".toList) (by decide)
      (fun kt hkt => by
        have : kt = ("id".toList, "$0".toList) := by simpa [cfgA] using hkt
        subst this
        decide)⟩

/-! ## Construction: the claims -/

theorem loads_of_mem (process : GoString → Except GoString config)
    (compile : GoString → Except GoString Regexp) (keys : List GoString)
    (specs : List (config × Regexp)) (h : List.Forall₂ (Loads process compile) keys specs) :
    ∀ key ∈ keys, ∃ spec, Loads process compile key spec := by
  induction h with
  | nil => intro key hkey; exact absurd hkey (List.not_mem_nil _)
  | @cons k spec keys specs hload _ ih =>
    intro key hkey
    rcases List.mem_cons.mp hkey with rfl | hkey
    · exact ⟨spec, hload⟩
    · exact ih key hkey

/-- C7. When the pattern of some key does not compile, construction fails as a whole: the
loop stops at the first key that fails, the map returned is nil and the error names that key
(and its pattern when the failure is a compilation failure), although the keys before it
loaded and compiled; `mogrify` on the returned map applies no entry. -/
theorem construction_fails_as_a_whole (ro : RangeOrder)
    (process : GoString → Except GoString config)
    (compile : GoString → Except GoString Regexp) (keys : List GoString)
    (h : ∃ key ∈ keys, ∃ cfg err, process (envPrefix ++ "_".toList ++ key) = Except.ok cfg
      ∧ compile cfg.Pattern = Except.error err) :
    ∃ pre specs key post msg, keys = pre ++ key :: post
      ∧ List.Forall₂ (Loads process compile) pre specs
      ∧ Fails process compile key msg
      ∧ newMogrifierMapFromEnv ro process compile keys = (none, some msg)
      ∧ ∀ (ro' : RangeOrder) (name : GoString),
          mogrify ro' (newMogrifierMapFromEnv ro process compile keys).1 name
            = Outcome.returned (name, none) := by
  rcases loads_or_fails process compile keys with
    ⟨specs, hs⟩ | ⟨pre, specs, key, post, msg, rfl, hs, hf⟩
  · exfalso
    obtain ⟨key, hkey, cfg, err, h1, h2⟩ := h
    obtain ⟨spec, h3, h4⟩ := loads_of_mem process compile keys specs hs key hkey
    rw [h1] at h3
    have : cfg = spec.1 := by injection h3
    rw [← this, h2] at h4
    exact absurd h4 (by simp)
  · have hres := newMogrifierMapLoop_fail ro process compile pre specs hs key post msg hf 0 []
      (fun e he => absurd he (List.not_mem_nil _))
    refine ⟨pre, specs, key, post, msg, rfl, hs, hf, hres, ?_⟩
    intro ro' name
    unfold newMogrifierMapFromEnv
    rw [hres]
    rfl

/-- C7, on the keys `A`, `C`, `B`: `A` compiles and the pattern `(` of `C` does not. -/
theorem construction_fails_as_a_whole_witness :
    (∃ key ∈ ["A".toList, "C".toList, "B".toList], ∃ cfg err,
        processDemo (envPrefix ++ "_".toList ++ key) = Except.ok cfg
        ∧ compileDemo cfg.Pattern = Except.error err)
    ∧ ∃ pre specs key post msg, ["A".toList, "C".toList, "B".toList] = pre ++ key :: post
      ∧ List.Forall₂ (Loads processDemo compileDemo) pre specs
      ∧ Fails processDemo compileDemo key msg
      ∧ newMogrifierMapFromEnv insertionOrder processDemo compileDemo
          ["A".toList, "C".toList, "B".toList] = (none, some msg)
      ∧ ∀ (ro' : RangeOrder) (name : GoString),
          mogrify ro' (newMogrifierMapFromEnv insertionOrder processDemo compileDemo
            ["A".toList, "C".toList, "B".toList]).1 name = Outcome.returned (name, none) :=
  ⟨⟨"C".toList, by decide, cfgC, _, rfl, rfl⟩,
    construction_fails_as_a_whole insertionOrder processDemo compileDemo
      ["A".toList, "C".toList, "B".toList]
      ⟨"C".toList, by decide, cfgC, _, rfl, rfl⟩⟩

/-! ## First match and faults at call time: the claims -/

/-- C1 (counterexample). The mogrifiers `A` (pattern `^baz$`) and `B` (pattern `^b`) are
configured in this order and both match `baz`.  Applying `A`, the first one configured, gives
`first` with the tag `id:baz`; when the loop of `mogrify` visits the map in the other order,
`mogrify` returns what `B` gives, `second.b` with no tags. -/
theorem mogrify_first_configured_counterexample :
    (newMogrifierMapFromEnv insertionOrder processDemo compileDemo
        ["A".toList, "B".toList]).2 = none
    ∧ (entriesOf (newMogrifierMapFromEnv insertionOrder processDemo compileDemo
        ["A".toList, "B".toList]).1).map (matchesName "baz".toList) = [true, true]
    ∧ applyEntry reverseOrder "baz".toList (entryOf insertionOrder 0 (cfgA, reBaz))
        = Outcome.returned ("first".toList, some ["id:baz".toList])
    ∧ mogrify reverseOrder (newMogrifierMapFromEnv insertionOrder processDemo compileDemo
        ["A".toList, "B".toList]).1 "baz".toList
        = Outcome.returned ("second.b".toList, some []) := by
  decide

/-- C1 (amended). On a map built from a list of keys, for a name that two or more entries
match, `mogrify` returns exactly the result of applying one entry built from one of the
keys: the first matching entry in the order in which the `range` loop visits the map, an
order Go leaves unspecified. -/
theorem mogrify_applies_first_visited (ro : RangeOrder)
    (process : GoString → Except GoString config)
    (compile : GoString → Except GoString Regexp) (keys : List GoString)
    (m : List (RegexpPtr × Mogrifier))
    (hbuild : newMogrifierMapFromEnv ro process compile keys = (some m, none))
    (ro' : RangeOrder) (name : GoString)
    (htwo : 2 ≤ (m.filter (matchesName name)).length) :
    ∃ e, (ro'.visit m).find? (matchesName name) = some e
      ∧ e ∈ m ∧ matchesName name e = true
      ∧ mogrify ro' (some m) name = applyEntry ro' name e
      ∧ ∃ key ∈ keys, ∃ spec, Loads process compile key spec ∧ ∃ j, e = entryOf ro j spec := by
  have hm : (newMogrifierMapFromEnv ro process compile keys).1 = some m := by rw [hbuild]
  obtain ⟨specs, hs, rfl⟩ := newMogrifierMapFromEnv_entries ro process compile keys m hm
  cases hfind : (ro'.visit (entriesFrom ro 0 specs)).find? (matchesName name) with
  | none =>
    exfalso
    rw [List.find?_eq_none] at hfind
    have hpos : 0 < ((entriesFrom ro 0 specs).filter (matchesName name)).length := by omega
    obtain ⟨e, he⟩ := List.exists_mem_of_length_pos hpos
    obtain ⟨he1, he2⟩ := List.mem_filter.mp he
    exact hfind e ((ro'.mem_visit _ e).mpr he1) he2
  | some e =>
    have hmem : e ∈ entriesFrom ro 0 specs :=
      (ro'.mem_visit _ e).mp (List.mem_of_find?_eq_some hfind)
    refine ⟨e, rfl, hmem, List.find?_some hfind, ?_,
      entries_of_loads ro process compile keys specs hs 0 e hmem⟩
    simp only [mogrify, mogrifyLoop_find, hfind]

/-- C1 (amended), on the mogrifiers `A` and `B` and the name `baz`, visited last inserted
first. -/
theorem mogrify_applies_first_visited_witness :
    2 ≤ ((entriesFrom insertionOrder 0 [(cfgA, reBaz), (cfgB, reB)]).filter
          (matchesName "baz".toList)).length
    ∧ ∃ e, (reverseOrder.visit (entriesFrom insertionOrder 0 [(cfgA, reBaz), (cfgB, reB)])).find?
          (matchesName "baz".toList) = some e
      ∧ e ∈ entriesFrom insertionOrder 0 [(cfgA, reBaz), (cfgB, reB)]
      ∧ matchesName "baz".toList e = true
      ∧ mogrify reverseOrder (some (entriesFrom insertionOrder 0 [(cfgA, reBaz), (cfgB, reB)]))
          "baz".toList = applyEntry reverseOrder "baz".toList e
      ∧ ∃ key ∈ ["A".toList, "B".toList], ∃ spec, Loads processDemo compileDemo key spec
          ∧ ∃ j, e = entryOf insertionOrder j spec :=
  ⟨by decide,
    mogrify_applies_first_visited insertionOrder processDemo compileDemo
      ["A".toList, "B".toList] (entriesFrom insertionOrder 0 [(cfgA, reBaz), (cfgB, reB)]) rfl
      reverseOrder "baz".toList (by decide)⟩

/-- The expansion of a template whose placeholders are all in range returns. -/
theorem makePatternHandler_in_range (template : GoString) (captures : List GoString)
    (hlen : captures.length ≤ maxInt) (h : PlaceholdersBelow template captures.length) :
    makePatternHandler template captures
      = Outcome.returned (substitute captures (tokenize template)) := by
  have hspec := tokenize_spec template
  have := makePatternHandler_substitute captures hlen (tokenize template) hspec.2 h
  rwa [hspec.1] at this

/-- The closure of an entry returns when the placeholders of its templates are in range. -/
theorem mogrifierFunc_in_range (ro ro' : RangeOrder) (cfg : config) (c : List GoString)
    (hlen : c.length ≤ maxInt) (hname : PlaceholdersBelow cfg.Name c.length)
    (htags : ∀ kt ∈ cfg.Tags, PlaceholdersBelow kt.2 c.length) :
    ∃ n tags, mogrifierFunc (makePatternHandler cfg.Name) (makeTagHandlers ro cfg.Tags) ro' c
      = Outcome.returned (n, some tags) := by
  let value' : GoString × (List GoString → Outcome GoString) → GoString :=
    fun kh => match kh.2 c with
      | Outcome.returned v => v
      | Outcome.panicked _ => []
  have hV : ∀ kh ∈ ro'.visit (makeTagHandlers ro cfg.Tags),
      kh.2 c = Outcome.returned (value' kh) := by
    intro kh hkh
    obtain ⟨t, ht, hkh2⟩ := mem_makeTagHandlers ro cfg.Tags kh ((ro'.mem_visit _ kh).mp hkh)
    have h1 : kh.2 c = Outcome.returned (substitute c (tokenize t)) := by
      rw [hkh2]
      exact makePatternHandler_in_range t c hlen (htags (kh.1, t) ht)
    show kh.2 c = Outcome.returned (match kh.2 c with
      | Outcome.returned v => v
      | Outcome.panicked _ => [])
    rw [h1]
  refine ⟨substitute c (tokenize cfg.Name),
    (ro'.visit (makeTagHandlers ro cfg.Tags)).map (fun kh => tagString kh.1 (value' kh)), ?_⟩
  unfold mogrifierFunc
  rw [makePatternHandler_in_range cfg.Name c hlen hname, collectTags_returned c value' _ hV []]
  rfl

/-- C9 (counterexample). The mogrifier `D` has the pattern `^baz$`, which produces the whole
match only, and the name template `$1`.  The map is constructed without error, and `mogrify`
of `baz` does not fall back to "no match": it panics on `matches[1]`. -/
theorem mogrify_fault_counterexample :
    (newMogrifierMapFromEnv insertionOrder processDemo compileDemo ["D".toList]).2 = none
    ∧ mogrify insertionOrder
        (newMogrifierMapFromEnv insertionOrder processDemo compileDemo ["D".toList]).1
        "baz".toList = Outcome.panicked (RuntimePanic.indexOutOfRange 1 1) := by
  decide

/-- C9 (amended). On a constructed map `mogrify` returns a (name, tags) pair and does not fault
provided that, for every configured entry whose matcher matches the name, every placeholder
index of its name template and of its tag templates is below the number of captures the
matcher produced.  (The number of captures is the length of a Go slice, an `int`.) -/
theorem mogrify_returns_in_range (ro : RangeOrder)
    (process : GoString → Except GoString config)
    (compile : GoString → Except GoString Regexp) (keys : List GoString)
    (m : List (RegexpPtr × Mogrifier))
    (hbuild : newMogrifierMapFromEnv ro process compile keys = (some m, none))
    (ro' : RangeOrder) (name : GoString)
    (hrange : ∀ key ∈ keys, ∀ spec, Loads process compile key spec →
      spec.2.findStringSubmatch name ≠ [] →
        (spec.2.findStringSubmatch name).length ≤ maxInt
        ∧ PlaceholdersBelow spec.1.Name (spec.2.findStringSubmatch name).length
        ∧ ∀ kt ∈ spec.1.Tags, PlaceholdersBelow kt.2 (spec.2.findStringSubmatch name).length) :
    ∃ n tags, mogrify ro' (some m) name = Outcome.returned (n, tags) := by
  have hm : (newMogrifierMapFromEnv ro process compile keys).1 = some m := by rw [hbuild]
  obtain ⟨specs, hs, rfl⟩ := newMogrifierMapFromEnv_entries ro process compile keys m hm
  cases hfind : (ro'.visit (entriesFrom ro 0 specs)).find? (matchesName name) with
  | none =>
    refine ⟨name, none, ?_⟩
    simp only [mogrify, mogrifyLoop_find, hfind]
  | some e =>
    have hmem : e ∈ entriesFrom ro 0 specs :=
      (ro'.mem_visit _ e).mp (List.mem_of_find?_eq_some hfind)
    have hmatch : matchesName name e = true := List.find?_some hfind
    obtain ⟨key, hkey, spec, hload, j, rfl⟩ :=
      entries_of_loads ro process compile keys specs hs 0 e hmem
    have hne : spec.2.findStringSubmatch name ≠ [] := by
      intro h0
      simp [matchesName, entryOf, h0] at hmatch
    obtain ⟨h1, h2, h3⟩ := hrange key hkey spec hload hne
    obtain ⟨n, tags, hres⟩ := mogrifierFunc_in_range ro ro' spec.1
      (spec.2.findStringSubmatch name) h1 h2 h3
    refine ⟨n, some tags, ?_⟩
    simp only [mogrify, mogrifyLoop_find, hfind]
    exact hres

/-- C9 (amended), on the mogrifiers `A` and `B` and the name `baz`. -/
theorem mogrify_returns_in_range_witness :
    (∀ key ∈ ["A".toList, "B".toList], ∀ spec, Loads processDemo compileDemo key spec →
      spec.2.findStringSubmatch "baz".toList ≠ [] →
        (spec.2.findStringSubmatch "baz".toList).length ≤ maxInt
        ∧ PlaceholdersBelow spec.1.Name (spec.2.findStringSubmatch "baz".toList).length
        ∧ ∀ kt ∈ spec.1.Tags,
            PlaceholdersBelow kt.2 (spec.2.findStringSubmatch "baz".toList).length)
    ∧ ∃ n tags, mogrify reverseOrder
        (some (entriesFrom insertionOrder 0 [(cfgA, reBaz), (cfgB, reB)])) "baz".toList
          = Outcome.returned (n, tags) :=
  have hrange : ∀ key ∈ ["A".toList, "B".toList], ∀ spec,
      Loads processDemo compileDemo key spec →
      spec.2.findStringSubmatch "baz".toList ≠ [] →
        (spec.2.findStringSubmatch "baz".toList).length ≤ maxInt
        ∧ PlaceholdersBelow spec.1.Name (spec.2.findStringSubmatch "baz".toList).length
        ∧ ∀ kt ∈ spec.1.Tags,
            PlaceholdersBelow kt.2 (spec.2.findStringSubmatch "baz".toList).length := by
    intro key hkey spec hload _
    obtain ⟨cfg, re⟩ := spec
    obtain ⟨h1, h2⟩ := hload
    simp only [List.mem_cons, List.mem_singleton, List.not_mem_nil, or_false] at hkey
    rcases hkey with rfl | rfl
    · have e1 : processDemo (envPrefix ++ "_".toList ++ "A".toList) = Except.ok cfgA := rfl
      rw [e1] at h1
      have hc : cfgA = cfg := by injection h1
      subst hc
      have e2 : compileDemo cfgA.Pattern = Except.ok reBaz := rfl
      have h2' : compileDemo cfgA.Pattern = Except.ok re := h2
      rw [e2] at h2'
      have hr : reBaz = re := by injection h2'
      subst hr
      decide
    · have e1 : processDemo (envPrefix ++ "_".toList ++ "B".toList) = Except.ok cfgB := rfl
      rw [e1] at h1
      have hc : cfgB = cfg := by injection h1
      subst hc
      have e2 : compileDemo cfgB.Pattern = Except.ok reB := rfl
      have h2' : compileDemo cfgB.Pattern = Except.ok re := h2
      rw [e2] at h2'
      have hr : reB = re := by injection h2'
      subst hr
      decide
  ⟨hrange,
    mogrify_returns_in_range insertionOrder processDemo compileDemo ["A".toList, "B".toList]
      (entriesFrom insertionOrder 0 [(cfgA, reBaz), (cfgB, reB)]) rfl reverseOrder
      "baz".toList hrange⟩

/-! ## Tokens: the claims -/

/-- The expansion of a template that is one placeholder token, as long as the index `Atoi`
reads from its digits is in range: the capture at that index, as it is. -/
theorem makePatternHandler_single_token (c : List GoString) (ds : GoString) (hne : ds ≠ [])
    (hds : ∀ d ∈ ds, d.isDigit = true) (i : Nat) (hatoi : (atoi ds).1 = (i : Int))
    (h : i < c.length) :
    makePatternHandler ('$' :: ds) c = Outcome.returned (c.get ⟨i, h⟩) := by
  have htoken := replaceAllLoop_token (fun s => index c (atoi (s.drop 1)).1) ds [] hne hds
    (fun d hd => by simp at hd)
  rw [List.append_nil] at htoken
  unfold makePatternHandler replaceAllStringFunc
  rw [htoken]
  beta_reduce
  simp only [List.drop_succ_cons, List.drop_zero, hatoi, index_of_lt c i h, replaceAllLoop,
    Outcome.bind_returned, List.append_nil]

/-- The expansion of a template that begins with a placeholder token in range: the capture
at the decimal value of the whole run of digits, then the expansion of the rest. -/
theorem makePatternHandler_leading_token (c : List GoString) (hlen : c.length ≤ maxInt)
    (ds rest : GoString) (hne : ds ≠ []) (hds : ∀ d ∈ ds, d.isDigit = true)
    (hrest : ∀ d, rest.head? = some d → d.isDigit = false)
    (hlt : decimalValue ds < c.length) :
    makePatternHandler ('$' :: (ds ++ rest)) c
      = (makePatternHandler rest c).bind fun out =>
          Outcome.returned (c.getD (decimalValue ds) [] ++ out) := by
  have htoken := replaceAllLoop_token (fun s => index c (atoi (s.drop 1)).1) ds rest hne hds
    hrest
  unfold makePatternHandler replaceAllStringFunc
  rw [htoken]
  beta_reduce
  rw [repl_in_range c ds hne hds hlt hlen]
  rfl

/-- C13. Expansion is one pass over the template: the text of a capture is inserted as it is
and is not scanned for placeholders.  For every capture sequence with at least two elements
the template `$1` expands to `c[1]`, whatever `c[1]` contains. -/
theorem expansion_is_single_pass (c : List GoString) (h : 1 < c.length) :
    makePatternHandler "$1".toList c = Outcome.returned (c.get ⟨1, h⟩) :=
  makePatternHandler_single_token c "1".toList (by decide) (by decide) 1 (by decide) h

/-- C13, on captures whose element 1 is the text `$0`: the result is `$0`, not the capture 0. -/
theorem expansion_is_single_pass_witness :
    1 < ["baz".toList, "$0".toList].length
    ∧ makePatternHandler "$1".toList ["baz".toList, "$0".toList]
        = Outcome.returned "$0".toList :=
  ⟨by decide, expansion_is_single_pass ["baz".toList, "$0".toList] (by decide)⟩

/-- C14. A placeholder token is a `$` with the longest run of decimal digits after it, and its
index is the decimal value of the whole run: a template that begins with such a token in
range expands to the capture at that value followed by the expansion of the rest; for every
capture sequence with more than 10 elements `$10` expands to `c[10]` and `$01` to `c[1]`. -/
theorem placeholder_takes_longest_digit_run (c : List GoString) (h : 10 < c.length) :
    (∀ ds rest : GoString, c.length ≤ maxInt → ds ≠ [] → (∀ d ∈ ds, d.isDigit = true) →
        (∀ d, rest.head? = some d → d.isDigit = false) → decimalValue ds < c.length →
        makePatternHandler ('$' :: (ds ++ rest)) c
          = (makePatternHandler rest c).bind fun out =>
              Outcome.returned (c.getD (decimalValue ds) [] ++ out))
    ∧ makePatternHandler "$10".toList c = Outcome.returned (c.get ⟨10, h⟩)
    ∧ makePatternHandler "$01".toList c
        = Outcome.returned (c.get ⟨1, Nat.lt_trans (by decide) h⟩) :=
  ⟨fun ds rest hlen hne hds hrest hlt =>
      makePatternHandler_leading_token c hlen ds rest hne hds hrest hlt,
    makePatternHandler_single_token c "10".toList (by decide) (by decide) 10 (by decide) h,
    makePatternHandler_single_token c "01".toList (by decide) (by decide) 1 (by decide)
      (Nat.lt_trans (by decide) h)⟩

/-- C14, on eleven captures `c0` .. `c10`: `$10` gives `c10`, not `c1` followed by `0`. -/
theorem placeholder_takes_longest_digit_run_witness :
    10 < ["c0".toList, "c1".toList, "c2".toList, "c3".toList, "c4".toList, "c5".toList,
        "c6".toList, "c7".toList, "c8".toList, "c9".toList, "c10".toList].length
    ∧ makePatternHandler "$10".toList ["c0".toList, "c1".toList, "c2".toList, "c3".toList,
        "c4".toList, "c5".toList, "c6".toList, "c7".toList, "c8".toList, "c9".toList,
        "c10".toList] = Outcome.returned "c10".toList
    ∧ makePatternHandler "$01".toList ["c0".toList, "c1".toList, "c2".toList, "c3".toList,
        "c4".toList, "c5".toList, "c6".toList, "c7".toList, "c8".toList, "c9".toList,
        "c10".toList] = Outcome.returned "c1".toList :=
  ⟨by decide,
    (placeholder_takes_longest_digit_run ["c0".toList, "c1".toList, "c2".toList, "c3".toList,
        "c4".toList, "c5".toList, "c6".toList, "c7".toList, "c8".toList, "c9".toList,
        "c10".toList] (by decide)).2⟩

/-! ## Concatenation of templates -/

theorem Outcome.bind_returned_id {α : Type} (x : Outcome α) :
    (x.bind fun a => Outcome.returned a) = x := by
  cases x <;> rfl

theorem dropWhile_digits_append (ds rest : List Char) (hds : ∀ d ∈ ds, d.isDigit = true) :
    (ds ++ rest).dropWhile Char.isDigit = rest.dropWhile Char.isDigit := by
  induction ds with
  | nil => rfl
  | cons d ds ih =>
    have hd : d.isDigit = true := hds d (List.mem_cons_self _ _)
    simp [List.dropWhile, hd, ih (fun c hc => hds c (List.mem_cons_of_mem _ hc))]

/-- A text that is some text, a `$` and digits ends with an open token. -/
theorem endsWithOpenToken_of_suffix (pre ds : List Char) (hds : ∀ d ∈ ds, d.isDigit = true) :
    endsWithOpenToken (pre ++ '$' :: ds) = true := by
  unfold endsWithOpenToken
  have hrev : (pre ++ '$' :: ds).reverse = ds.reverse ++ '$' :: pre.reverse := by simp
  rw [hrev, dropWhile_digits_append _ _ (fun d hd => hds d (List.mem_reverse.mp hd))]
  have hdollar : Char.isDigit '$' = false := by decide
  simp [List.dropWhile, hdollar]

theorem head_append_not_digit (x t2 : List Char)
    (hx : ∀ d, x.head? = some d → d.isDigit = false)
    (ht : x = [] → ∀ d, t2.head? = some d → d.isDigit = false) :
    ∀ d, (x ++ t2).head? = some d → d.isDigit = false := by
  cases x with
  | nil => simpa using ht rfl
  | cons c cs => intro d hd; exact hx d (by simpa using hd)

/-- The scan of a tokenized text followed by a second text, when no token of the first can
run into the second: the scan of the first, then the scan of the second. -/
theorem replaceAllLoop_append (repl : GoString → Outcome GoString) (s1 : List Segment)
    (htok : IsTokenization s1) (t2 : GoString)
    (hb : endsWithOpenToken (templateText s1) = true →
      ∀ d, t2.head? = some d → d.isDigit = false) :
    replaceAllLoop repl 0 (templateText s1 ++ t2)
      = (replaceAllLoop repl 0 (templateText s1)).bind fun a =>
          (replaceAllLoop repl 0 t2).bind fun b => Outcome.returned (a ++ b) := by
  induction s1 with
  | nil =>
    show replaceAllLoop repl 0 t2 = (replaceAllLoop repl 0 t2).bind fun b => Outcome.returned b
    rw [Outcome.bind_returned_id]
  | cons s rest ih =>
    obtain ⟨hwf, hnext, hrest⟩ := htok
    have hb' : endsWithOpenToken (templateText rest) = true →
        ∀ d, t2.head? = some d → d.isDigit = false := by
      intro hends
      apply hb
      unfold endsWithOpenToken at hends ⊢
      have hrev : (templateText (s :: rest)).reverse
          = (templateText rest).reverse ++ s.text.reverse := by
        simp [templateText]
      rw [hrev]
      cases hdw : (templateText rest).reverse.dropWhile Char.isDigit with
      | nil => rw [hdw] at hends; simp at hends
      | cons e es =>
        have : ((templateText rest).reverse ++ s.text.reverse).dropWhile Char.isDigit
            = e :: es ++ s.text.reverse := by
          have hgen : ∀ (l m : List Char) (e : Char) (es : List Char),
              l.dropWhile Char.isDigit = e :: es →
              (l ++ m).dropWhile Char.isDigit = e :: es ++ m := by
            intro l m e es
            induction l with
            | nil => intro h; simp at h
            | cons a l ihl =>
              intro h
              by_cases ha : a.isDigit = true
              · simp only [List.dropWhile, ha] at h
                simp only [List.cons_append, List.dropWhile, ha]
                exact ihl h
              · simp only [List.dropWhile, ha] at h
                simp only [List.cons_append, List.dropWhile, ha]
                cases h
                rfl
          exact hgen _ _ e es hdw
        rw [this]
        rw [hdw] at hends
        simpa using hends
    have ih' := ih hrest hb'
    cases s with
    | lit c =>
      have hcond1 : c ≠ '$' ∨ ∀ d, (templateText rest).head? = some d → d.isDigit = false := by
        by_cases hc : c = '$'
        · right
          exact text_head_not_digit rest (hnext (by simp [Segment.opensToken, hc]))
        · left; exact hc
      have hcond2 : c ≠ '$' ∨
          ∀ d, (templateText rest ++ t2).head? = some d → d.isDigit = false := by
        by_cases hc : c = '$'
        · right
          apply head_append_not_digit
          · exact text_head_not_digit rest (hnext (by simp [Segment.opensToken, hc]))
          · intro hnil
            apply hb
            have := endsWithOpenToken_of_suffix [] [] (by simp)
            simpa [templateText, Segment.text, hnil, hc] using this
        · left; exact hc
      show replaceAllLoop repl 0 (c :: (templateText rest ++ t2))
        = (replaceAllLoop repl 0 (c :: templateText rest)).bind fun a =>
            (replaceAllLoop repl 0 t2).bind fun b => Outcome.returned (a ++ b)
      rw [replaceAllLoop_copy repl c _ hcond2, replaceAllLoop_copy repl c _ hcond1, ih']
      cases replaceAllLoop repl 0 (templateText rest) with
      | panicked p => rfl
      | returned a =>
        cases replaceAllLoop repl 0 t2 with
        | panicked p => rfl
        | returned b => rfl
    | placeholder ds =>
      have hcond1 := text_head_not_digit rest (hnext rfl)
      have hcond2 : ∀ d, (templateText rest ++ t2).head? = some d → d.isDigit = false := by
        apply head_append_not_digit _ _ hcond1
        intro hnil
        apply hb
        have := endsWithOpenToken_of_suffix [] ds hwf.2
        simpa [templateText, Segment.text, hnil] using this
      have hassoc : templateText (Segment.placeholder ds :: rest) ++ t2
          = '$' :: (ds ++ (templateText rest ++ t2)) := by
        simp [templateText, Segment.text]
      have htext : templateText (Segment.placeholder ds :: rest)
          = '$' :: (ds ++ templateText rest) := rfl
      rw [hassoc, htext]
      rw [replaceAllLoop_token repl ds _ hwf.1 hwf.2 hcond2,
        replaceAllLoop_token repl ds _ hwf.1 hwf.2 hcond1, ih']
      cases repl ('$' :: ds) with
      | panicked p => rfl
      | returned r =>
        cases replaceAllLoop repl 0 (templateText rest) with
        | panicked p => rfl
        | returned a =>
          cases replaceAllLoop repl 0 t2 with
          | panicked p => rfl
          | returned b =>
            simp only [Outcome.bind_returned, List.append_assoc]

/-- The expansion of two templates put together, unless the second begins with a digit while
the first ends with a `$` and digits: the expansion of the first, then of the second. -/
theorem makePatternHandler_append (t1 t2 : GoString) (c : List GoString)
    (hb : ¬ (startsWithDigit t2 = true ∧ endsWithOpenToken t1 = true)) :
    makePatternHandler (t1 ++ t2) c
      = (makePatternHandler t1 c).bind fun a =>
          (makePatternHandler t2 c).bind fun b => Outcome.returned (a ++ b) := by
  have hspec := tokenize_spec t1
  have h := replaceAllLoop_append (fun s => index c (atoi (s.drop 1)).1) (tokenize t1)
    hspec.2 t2 (by
      rw [hspec.1]
      intro hends d hd
      cases hdig : d.isDigit with
      | false => rfl
      | true =>
        exfalso
        apply hb
        refine ⟨?_, hends⟩
        cases t2 with
        | nil => simp at hd
        | cons e es =>
          simp at hd
          subst hd
          exact hdig)
  rw [hspec.1] at h
  exact h

theorem head_not_digit_of_startsWithDigit (t : GoString) (h : startsWithDigit t = false) :
    ∀ d, t.head? = some d → d.isDigit = false := by
  intro d hd
  cases t with
  | nil => simp at hd
  | cons e es =>
    simp at hd
    subst hd
    exact h

/-- C15. For templates `t1`, `t2` and captures with every placeholder index in range, unless
`t2` begins with a decimal digit while `t1` ends with a `$` followed by zero or more digits,
the expansion of `t1 ++ t2` is the expansion of `t1` followed by the expansion of `t2`. -/
theorem expansion_distributes_over_concatenation (t1 t2 : GoString) (c : List GoString)
    (hlen : c.length ≤ maxInt) (h1 : PlaceholdersBelow t1 c.length)
    (h2 : PlaceholdersBelow t2 c.length)
    (hb : ¬ (startsWithDigit t2 = true ∧ endsWithOpenToken t1 = true)) :
    ∃ a b, makePatternHandler t1 c = Outcome.returned a
      ∧ makePatternHandler t2 c = Outcome.returned b
      ∧ makePatternHandler (t1 ++ t2) c = Outcome.returned (a ++ b) := by
  have e1 := makePatternHandler_in_range t1 c hlen h1
  have e2 := makePatternHandler_in_range t2 c hlen h2
  refine ⟨_, _, e1, e2, ?_⟩
  rw [makePatternHandler_append t1 t2 c hb, e1, e2]
  rfl

/-- C15, on `a$1x` and `2$0`: the second template begins with a digit and the first does not
end in an open token. -/
theorem expansion_distributes_over_concatenation_witness :
    ["p".toList, "q".toList].length ≤ maxInt
    ∧ PlaceholdersBelow "a$1x".toList ["p".toList, "q".toList].length
    ∧ PlaceholdersBelow "2$0".toList ["p".toList, "q".toList].length
    ∧ ¬ (startsWithDigit "2$0".toList = true ∧ endsWithOpenToken "a$1x".toList = true)
    ∧ ∃ a b, makePatternHandler "a$1x".toList ["p".toList, "q".toList] = Outcome.returned a
      ∧ makePatternHandler "2$0".toList ["p".toList, "q".toList] = Outcome.returned b
      ∧ makePatternHandler ("a$1x".toList ++ "2$0".toList) ["p".toList, "q".toList]
          = Outcome.returned (a ++ b) :=
  ⟨by decide, by decide, by decide, by decide,
    expansion_distributes_over_concatenation "a$1x".toList "2$0".toList
      ["p".toList, "q".toList] (by decide) (by decide) (by decide) (by decide)⟩

/-! ## Malformed indices: the claim -/

/-- C11 (counterexample). With the single capture `X`: the text `$abc` is returned as it is,
the index is not taken as 0 (the template `$0abc` is the one that gives `Xabc`); and for the
digits `99999999999999999999` `Atoi` gives the largest `int` with a range error, not 0, and
the expansion is aborted by the fault of the index expression. -/
theorem malformed_index_counterexample :
    makePatternHandler "$abc".toList ["X".toList] = Outcome.returned "$abc".toList
    ∧ makePatternHandler "$0abc".toList ["X".toList] = Outcome.returned "Xabc".toList
    ∧ atoi "99999999999999999999".toList = (9223372036854775807, some NumError.errRange)
    ∧ makePatternHandler "$99999999999999999999".toList ["X".toList]
        = Outcome.panicked (RuntimePanic.indexOutOfRange 9223372036854775807 1) := by
  decide

/-- C11 (amended). A `$` that is not followed by a decimal digit is no placeholder: it is
copied as it is and the expansion goes on before and after it.  A run of digits too large
for an `int` is read by `Atoi` as the largest `int` (with a range error the code drops), not
as 0, and the index expression then faults. -/
theorem malformed_index_is_not_zero (c : List GoString) (pre rest : GoString)
    (hrest : startsWithDigit rest = false) (ds tail : GoString) (hne : ds ≠ [])
    (hds : ∀ d ∈ ds, d.isDigit = true) (hbig : maxInt < decimalValue ds)
    (hlen : c.length ≤ maxInt) (htail : startsWithDigit tail = false) :
    makePatternHandler (pre ++ '$' :: rest) c
        = ((makePatternHandler pre c).bind fun a =>
            (makePatternHandler rest c).bind fun b => Outcome.returned (a ++ '$' :: b))
    ∧ atoi ds = ((maxInt : Int), some NumError.errRange)
    ∧ makePatternHandler ('$' :: (ds ++ tail)) c
        = Outcome.panicked (RuntimePanic.indexOutOfRange (maxInt : Int) c.length) := by
  refine ⟨?_, ?_, ?_⟩
  · have hb : ¬ (startsWithDigit ('$' :: rest) = true ∧ endsWithOpenToken pre = true) := by
      rintro ⟨h, _⟩
      have hd : Char.isDigit '$' = false := by decide
      have h' : Char.isDigit '$' = true := h
      rw [hd] at h'
      exact Bool.noConfusion h'
    have hcopy : makePatternHandler ('$' :: rest) c
        = (makePatternHandler rest c).bind fun out => Outcome.returned ('$' :: out) :=
      replaceAllLoop_copy (fun s => index c (atoi (s.drop 1)).1) '$' rest
        (Or.inr (head_not_digit_of_startsWithDigit rest hrest))
    rw [makePatternHandler_append pre ('$' :: rest) c hb, hcopy]
    cases makePatternHandler pre c with
    | panicked p => rfl
    | returned a =>
      cases makePatternHandler rest c with
      | panicked p => rfl
      | returned b => rfl
  · rw [atoi_digits ds hne hds]
    have : ¬ decimalValue ds ≤ maxInt := by omega
    simp only [this, if_false]
  · have htoken := replaceAllLoop_token (fun s => index c (atoi (s.drop 1)).1) ds tail hne hds
      (head_not_digit_of_startsWithDigit tail htail)
    unfold makePatternHandler replaceAllStringFunc
    rw [htoken]
    beta_reduce
    rw [repl_out_of_range c ds hne hds (by omega) hlen]
    have hmin : min (decimalValue ds) maxInt = maxInt := Nat.min_eq_right (by omega)
    rw [hmin]
    rfl

/-- C11 (amended), on `a$1$bc` split at its second `$`, and on `$99999999999999999999-x`. -/
theorem malformed_index_is_not_zero_witness :
    startsWithDigit "bc".toList = false
    ∧ maxInt < decimalValue "99999999999999999999".toList
    ∧ makePatternHandler ("a$1".toList ++ '$' :: "bc".toList) ["X".toList, "Y".toList]
        = ((makePatternHandler "a$1".toList ["X".toList, "Y".toList]).bind fun a =>
            (makePatternHandler "bc".toList ["X".toList, "Y".toList]).bind fun b =>
              Outcome.returned (a ++ '$' :: b))
    ∧ atoi "99999999999999999999".toList = ((maxInt : Int), some NumError.errRange)
    ∧ makePatternHandler ('$' :: ("99999999999999999999".toList ++ "-x".toList))
          ["X".toList, "Y".toList]
        = Outcome.panicked (RuntimePanic.indexOutOfRange (maxInt : Int)
            ["X".toList, "Y".toList].length) :=
  ⟨by decide, by decide,
    malformed_index_is_not_zero ["X".toList, "Y".toList] "a$1".toList "bc".toList (by decide)
      "99999999999999999999".toList "-x".toList (by decide) (by decide) (by decide)
      (by decide) (by decide)⟩

/-! ## The entries of a constructed map: the claim -/

theorem entriesFrom_length (ro : RangeOrder) (i : Nat) (specs : List (config × Regexp)) :
    (entriesFrom ro i specs).length = specs.length := by
  induction specs generalizing i with
  | nil => rfl
  | cons spec rest ih => simp [entriesFrom, ih]

/-- The entries made from specifications have pairwise different keys. -/
theorem entriesFrom_addr_nodup (ro : RangeOrder) (i : Nat) (specs : List (config × Regexp)) :
    ((entriesFrom ro i specs).map fun e => e.1.addr).Nodup := by
  induction specs generalizing i with
  | nil => simp [entriesFrom]
  | cons spec rest ih =>
    simp only [entriesFrom, List.map_cons, List.nodup_cons]
    refine ⟨?_, ih (i + 1)⟩
    intro hmem
    obtain ⟨e, he, heq⟩ := List.mem_map.mp hmem
    have := (entriesFrom_addr ro (i + 1) rest e he).1
    simp only [entryOf] at heq
    omega

/-- C12 (counterexample). The map built for the keys `A`, `B` is not kept in the order of the
keys: a `range` loop may visit the entry of `B` (pattern `^b`, made in iteration 1) before
the entry of `A` (pattern `^baz$`, made in iteration 0). -/
theorem construction_order_counterexample :
    (newMogrifierMapFromEnv insertionOrder processDemo compileDemo
        ["A".toList, "B".toList]).2 = none
    ∧ (reverseOrder.visit (entriesOf (newMogrifierMapFromEnv insertionOrder processDemo
        compileDemo ["A".toList, "B".toList]).1)).map (fun e => e.1.addr) = [1, 0]
    ∧ (reverseOrder.visit (entriesOf (newMogrifierMapFromEnv insertionOrder processDemo
        compileDemo ["A".toList, "B".toList]).1)).map
          (fun e => e.1.target.findStringSubmatch "baz".toList)
        = [["b".toList], ["baz".toList]] := by
  decide

/-- C12 (amended). A successful construction from `n` keys returns a map that holds exactly
`n` entries, one per specification and under pairwise different keys, also when two
specifications have the same pattern; the map keeps no order: a `range` loop visits these
entries in some order. -/
theorem construction_holds_one_entry_per_key (ro : RangeOrder)
    (process : GoString → Except GoString config)
    (compile : GoString → Except GoString Regexp) (keys : List GoString)
    (m : List (RegexpPtr × Mogrifier))
    (hbuild : newMogrifierMapFromEnv ro process compile keys = (some m, none)) :
    ∃ specs, List.Forall₂ (Loads process compile) keys specs
      ∧ m.length = keys.length
      ∧ (m.map fun e => e.1.addr).Nodup
      ∧ ∀ ro' : RangeOrder, (ro'.visit m).Perm (entriesFrom ro 0 specs)
          ∧ (ro'.visit m).length = keys.length := by
  have hm : (newMogrifierMapFromEnv ro process compile keys).1 = some m := by rw [hbuild]
  obtain ⟨specs, hs, rfl⟩ := newMogrifierMapFromEnv_entries ro process compile keys m hm
  have hlen : (entriesFrom ro 0 specs).length = keys.length := by
    rw [entriesFrom_length, hs.length_eq]
  refine ⟨specs, hs, hlen, entriesFrom_addr_nodup ro 0 specs, fun ro' => ?_⟩
  exact ⟨ro'.visit_perm _, by rw [(ro'.visit_perm _).length_eq, hlen]⟩

/-- C12 (amended), on the keys `A` and `D`, which have the same pattern `^baz$`. -/
theorem construction_holds_one_entry_per_key_witness :
    newMogrifierMapFromEnv insertionOrder processDemo compileDemo ["A".toList, "D".toList]
        = (some (entriesFrom insertionOrder 0 [(cfgA, reBaz), (cfgD, reBaz)]), none)
    ∧ ∃ specs, List.Forall₂ (Loads processDemo compileDemo) ["A".toList, "D".toList] specs
      ∧ (entriesFrom insertionOrder 0 [(cfgA, reBaz), (cfgD, reBaz)]).length
          = ["A".toList, "D".toList].length
      ∧ ((entriesFrom insertionOrder 0 [(cfgA, reBaz), (cfgD, reBaz)]).map
          fun e => e.1.addr).Nodup
      ∧ ∀ ro' : RangeOrder,
          (ro'.visit (entriesFrom insertionOrder 0 [(cfgA, reBaz), (cfgD, reBaz)])).Perm
            (entriesFrom insertionOrder 0 specs)
          ∧ (ro'.visit (entriesFrom insertionOrder 0 [(cfgA, reBaz), (cfgD, reBaz)])).length
              = ["A".toList, "D".toList].length :=
  ⟨rfl,
    construction_holds_one_entry_per_key insertionOrder processDemo compileDemo
      ["A".toList, "D".toList] (entriesFrom insertionOrder 0 [(cfgA, reBaz), (cfgD, reBaz)])
      rfl⟩

end Godogstats
